import Mathlib

/-!
# fmdserver2: the `user` package (`userDB.go`, `userhandler.go`)

A shallow embedding of the account manager `UserIO` and of the account store
`FMDDB` it drives, followed by the properties established about them.

Conventions of the embedding

* Go `int` values are `Int`; surrogate keys (`uint64`) are `Nat`.
* A Go function that can panic returns `Except Panic _`; a method that writes
  to the database returns a `Result`, which also carries the database as the
  call leaves it.
* The relational engine behind `*gorm.DB` is the state `FMDDB`: three tables
  kept in key order, with the constraints the struct tags of `userDB.go`
  declare and the engine enforces (primary keys, the unique index on `UID`).
* The random source read by `rand.Int` is the list of the values it is going
  to deliver; an exhausted list is a failing reader.
-/

namespace FMD

/-! ## Panics -/

/-- The run-time panics the embedded functions can raise. -/
inductive Panic where
  /-- A field access or `len` through a nil `*FMDUser`. -/
  | nilPointerDereference
  /-- An index expression `s[i]` with `i` outside `[0, len s)`. -/
  | indexOutOfRange
  /-- A slice expression `s[:hi]` with `hi` outside the slice. -/
  | sliceBoundsOutOfRange
  /-- The call `make([]rune, length)` with a negative length. -/
  | makeSliceLenOutOfRange
  /-- The call `panic(err)` after `rand.Int` reported an error. -/
  | randomSourceFailure
  deriving DecidableEq, Repr

deriving instance DecidableEq for Except

/-! ## Identifier generator (`genRandomString`) -/

/-- The rune slice `letters` of `genRandomString`. -/
def letters : List Char :=
  "abcdefghijkmnopqrstuvwxyzABCDEFGHJKLMNPQRSTUVWXYZ23456789".toList

/-- The values `rand.Int(rand.Reader, _)` will return, in order.  When none is
left the reader fails and `rand.Int` returns an error. -/
abbrev RandSource := List Nat

/-- The loop `for i := range s` of `genRandomString`, with `n` positions still
to fill: each round draws `nBig`, panics on a reader error, and stores
`letters[nBig.Int64()]`. -/
def genRunes : Nat → RandSource → Except Panic (List Char × RandSource)
  | 0, rnd => .ok ([], rnd)
  | _ + 1, [] => .error .randomSourceFailure
  | n + 1, nBig :: rnd =>
    match letters[nBig]? with
    | none => .error .indexOutOfRange
    | some c =>
      match genRunes n rnd with
      | .error p => .error p
      | .ok (s, rnd') => .ok (c :: s, rnd')

/-- Embedding of `genRandomString(length int) string`. -/
def genRandomString (length : Int) (rnd : RandSource) :
    Except Panic (String × RandSource) :=
  if length < 0 then .error .makeSliceLenOutOfRange
  else
    match genRunes length.toNat rnd with
    | .error p => .error p
    | .ok (s, rnd') => .ok (String.mk s, rnd')

/-- The characters the identifier alphabet leaves out. -/
def excluded : List Char := ['0', 'O', 'l', 'I', '1']

/-- A letter `a`-`z` or `A`-`Z` or a digit `0`-`9`. -/
def isLetterOrDigit (c : Char) : Bool :=
  ('a' ≤ c && c ≤ 'z') || ('A' ≤ c && c ≤ 'Z') || ('0' ≤ c && c ≤ '9')

/-! ## Data model (`userDB.go`) -/

/-- Embedding of `type Location struct` (table of the users' locations). -/
structure Location where
  Id : Nat
  UserID : Nat
  Position : String
  deriving DecidableEq, Repr

/-- Embedding of `type Picture struct` (table of the users' pictures). -/
structure Picture where
  Id : Nat
  UserID : Nat
  Content : String
  deriving DecidableEq, Repr

/-- Embedding of `type FMDUser struct`.  `Locations` and `Pictures` are
associations (`foreignKey:UserID`), filled by `Preload` when a user is loaded;
they are not columns of the users table. -/
structure FMDUser where
  Id : Nat
  UID : String
  Salt : String
  HashedPassword : String
  PrivateKey : String
  PublicKey : String
  CommandToUser : String
  PushUrl : String
  Locations : List Location
  Pictures : List Picture
  deriving DecidableEq, Repr

/-- The columns of a user value: what is written to the users table. -/
def FMDUser.row (user : FMDUser) : FMDUser :=
  { user with Locations := [], Pictures := [] }

/-- State of the database behind `FMDDB.DB`: the three tables created by
`AutoMigrate`, each listed in ascending key order, and the next key of each
auto-increment sequence. -/
structure FMDDB where
  users : List FMDUser
  locations : List Location
  pictures : List Picture
  userSeq : Nat
  locationSeq : Nat
  pictureSeq : Nat
  deriving DecidableEq, Repr

/-- The values handed to `Create`, `Save` and `Delete` (their parameter is
`interface{}`): a `*FMDUser`, which may be nil, a `Location` or a `Picture`. -/
inductive Entity where
  | user (value : Option FMDUser)
  | location (value : Location)
  | picture (value : Picture)
  deriving DecidableEq, Repr

namespace FMDDB

/-- A freshly migrated, empty database. -/
def empty : FMDDB :=
  { users := [], locations := [], pictures := [],
    userSeq := 1, locationSeq := 1, pictureSeq := 1 }

/-- Embedding of `func (db *FMDDB) GetByID(id string) *FMDUser`.

`Where(&user)` with `user = FMDUser{UID: id}` builds its conditions from the
non-zero fields of the struct (gorm: "when querying with struct, GORM will only
query with non-zero fields"): for a non-empty `id` the condition is
`uid = id`; for `id = ""` there is no condition at all.  `First` takes the
matching row with the least primary key, `Preload` loads the rows of the two
child tables whose `UserID` is the key of that row.  When no row matches,
`user` keeps `Id == 0` and the result is nil. -/
def GetByID (db : FMDDB) (id : String) : Option FMDUser :=
  let first := if id = "" then db.users.head? else db.users.find? (fun r => r.UID == id)
  match first with
  | none => none
  | some r =>
    if r.Id = 0 then none
    else
      some { r with
        Locations := db.locations.filter (fun l => l.UserID == r.Id),
        Pictures := db.pictures.filter (fun p => p.UserID == r.Id) }

/-- Insertion of a user row.  A zero `Id` takes the next key of the sequence.
The unique index on `UID` and the primary key reject a conflicting row; the
error is discarded by `Create`, the table is left as it was. -/
def insertUser (db : FMDDB) (value : FMDUser) : FMDDB :=
  if db.users.any (fun r => r.UID == value.UID) then db
  else if value.Id = 0 then
    { db with users := db.users ++ [{ value.row with Id := db.userSeq }],
              userSeq := db.userSeq + 1 }
  else if db.users.any (fun r => r.Id == value.Id) then db
  else
    { db with users := db.users.orderedInsert (fun a b => a.Id ≤ b.Id) value.row,
              userSeq := max db.userSeq (value.Id + 1) }

/-- Insertion of a location row. -/
def insertLocation (db : FMDDB) (value : Location) : FMDDB :=
  if value.Id = 0 then
    { db with locations := db.locations ++ [{ value with Id := db.locationSeq }],
              locationSeq := db.locationSeq + 1 }
  else if db.locations.any (fun r => r.Id == value.Id) then db
  else
    { db with locations := db.locations.orderedInsert (fun a b => a.Id ≤ b.Id) value,
              locationSeq := max db.locationSeq (value.Id + 1) }

/-- Insertion of a picture row. -/
def insertPicture (db : FMDDB) (value : Picture) : FMDDB :=
  if value.Id = 0 then
    { db with pictures := db.pictures ++ [{ value with Id := db.pictureSeq }],
              pictureSeq := db.pictureSeq + 1 }
  else if db.pictures.any (fun r => r.Id == value.Id) then db
  else
    { db with pictures := db.pictures.orderedInsert (fun a b => a.Id ≤ b.Id) value,
              pictureSeq := max db.pictureSeq (value.Id + 1) }

/-- Embedding of `func (db *FMDDB) Create(value interface{})`.  A nil pointer
is an invalid value for gorm and nothing is written.  (Associations carried by
a user value would be written along with it; `CreateNewUser`, the only caller
with a user, passes none.) -/
def Create (db : FMDDB) : Entity → FMDDB
  | .user none => db
  | .user (some value) => db.insertUser value
  | .location value => db.insertLocation value
  | .picture value => db.insertPicture value

/-- Embedding of `func (db *FMDDB) Save(value interface{})`: a value with a
zero primary key is created; otherwise all columns of the row with that key
are updated, and the value is inserted when there is no such row.  An update
that would break the unique index on `UID` is rejected.  (gorm also re-submits
the associations of a user value through an upsert on their keys; every caller
passes the rows it has just loaded, which leaves the child tables as they
are.) -/
def Save (db : FMDDB) : Entity → FMDDB
  | .user none => db
  | .user (some value) =>
    if value.Id = 0 then db.insertUser value
    else if db.users.any (fun r => r.Id == value.Id) then
      if db.users.any (fun r => r.Id != value.Id && r.UID == value.UID) then db
      else { db with users := db.users.map (fun r => if r.Id = value.Id then value.row else r) }
    else db.insertUser value
  | .location value =>
    if value.Id = 0 then db.insertLocation value
    else if db.locations.any (fun r => r.Id == value.Id) then
      { db with locations := db.locations.map (fun r => if r.Id = value.Id then value else r) }
    else db.insertLocation value
  | .picture value =>
    if value.Id = 0 then db.insertPicture value
    else if db.pictures.any (fun r => r.Id == value.Id) then
      { db with pictures := db.pictures.map (fun r => if r.Id = value.Id then value else r) }
    else db.insertPicture value

/-- Embedding of `func (db *FMDDB) Delete(value interface{})`: the row whose
primary key is the key of the value is removed.  A zero key gives a statement
without condition, which gorm refuses; a nil pointer is refused as well.
Removing a user row leaves the two child tables as they are: the tags of
`FMDUser` declare `constraint:OnDelete:CASCADE`, but `initSQLite` opens the
connection with `sqlite.Open(path)` and sets neither a foreign-key option nor
a pragma, and SQLite enforces foreign keys only on a connection that turns
them on. -/
def Delete (db : FMDDB) : Entity → FMDDB
  | .user none => db
  | .user (some value) =>
    if value.Id = 0 then db
    else { db with users := db.users.filter (fun r => r.Id != value.Id) }
  | .location value =>
    if value.Id = 0 then db
    else { db with locations := db.locations.filter (fun l => l.Id != value.Id) }
  | .picture value =>
    if value.Id = 0 then db
    else { db with pictures := db.pictures.filter (fun p => p.Id != value.Id) }

end FMDDB

/-! ## Account manager (`userhandler.go`) -/

/-- Embedding of `type UserIO struct`: the configuration set by `Init` and the
database `UB` points to.  The collaborator `ACC` is passed to `RequestAccess`,
the only method that uses it. -/
structure UserIO where
  userIDLength : Int
  maxSavedLoc : Int
  maxSavedPic : Int
  UB : FMDDB
  deriving DecidableEq, Repr

/-- How a call of a method that writes to the database ends: the receiver with
the database as the call leaves it, and either the returned value or the panic
that ended the call. -/
structure Result (α : Type) where
  u : UserIO
  ret : Except Panic α
  deriving DecidableEq

namespace UserIO

/-- The loop of `generateNewId`: `for u.UB.GetByID(newId) != nil`, with `fuel`
bounding the number of further rounds; `none` when the loop is still running
once the fuel is spent. -/
def generateNewIdLoop (u : UserIO) :
    Nat → String → RandSource → Option (Except Panic (String × RandSource))
  | 0, newId, rnd =>
    if (u.UB.GetByID newId).isSome then none else some (.ok (newId, rnd))
  | fuel + 1, newId, rnd =>
    if (u.UB.GetByID newId).isSome then
      match genRandomString u.userIDLength rnd with
      | .error p => some (.error p)
      | .ok (newId', rnd') => generateNewIdLoop u fuel newId' rnd'
    else some (.ok (newId, rnd))

/-- Embedding of `func (u *UserIO) generateNewId() string`. -/
def generateNewId (u : UserIO) (fuel : Nat) (rnd : RandSource) :
    Option (Except Panic (String × RandSource)) :=
  match genRandomString u.userIDLength rnd with
  | .error p => some (.error p)
  | .ok (newId, rnd') => generateNewIdLoop u fuel newId rnd'

/-- Embedding of `func (u *UserIO) CreateNewUser(privKey, pubKey, salt,
hashedPassword string) string`; the random source left is returned along. -/
def CreateNewUser (u : UserIO) (fuel : Nat) (rnd : RandSource)
    (privKey pubKey salt hashedPassword : String) :
    Option (Result String × RandSource) :=
  match u.generateNewId fuel rnd with
  | none => none
  | some (.error p) => some ({ u := u, ret := .error p }, rnd)
  | some (.ok (id, rnd')) =>
    some ({ u := { u with UB := u.UB.Create (.user (some
              { Id := 0, UID := id, Salt := salt, HashedPassword := hashedPassword,
                PrivateKey := privKey, PublicKey := pubKey, CommandToUser := "",
                PushUrl := "", Locations := [], Pictures := [] })) },
            ret := .ok id }, rnd')

/-- Embedding of `func (u *UserIO) UpdateUserPassword(id, privKey, salt,
hashedPassword string)`. -/
def UpdateUserPassword (u : UserIO) (id privKey salt hashedPassword : String) :
    Result Unit :=
  match u.UB.GetByID id with
  | none => { u := u, ret := .error .nilPointerDereference }
  | some user =>
    { u := { u with UB := u.UB.Save (.user (some
        { user with HashedPassword := hashedPassword, Salt := salt, PrivateKey := privKey })) },
      ret := .ok () }

/-- The loop `for _, locationToDelete := range locationsToDelete`. -/
def deleteLocations (db : FMDDB) (locationsToDelete : List Location) : FMDDB :=
  locationsToDelete.foldl (fun d locationToDelete => d.Delete (.location locationToDelete)) db

/-- The loop `for _, pictureToDelete := range picturesToDelete`. -/
def deletePictures (db : FMDDB) (picturesToDelete : List Picture) : FMDDB :=
  picturesToDelete.foldl (fun d pictureToDelete => d.Delete (.picture pictureToDelete)) db

/-- Embedding of `func (u *UserIO) AddLocation(id string, loc string)`.  The
slice expression `user.Locations[:(len(user.Locations) - u.maxSavedLoc)]` panics
when its bound exceeds the slice (the loaded slice is taken at full capacity). -/
def AddLocation (u : UserIO) (id loc : String) : Result Unit :=
  match u.UB.GetByID id with
  | none => { u := u, ret := .error .nilPointerDereference }
  | some user =>
    let db := u.UB.Create (.location { Id := 0, UserID := user.Id, Position := loc })
    if (user.Locations.length : Int) > u.maxSavedLoc then
      let hi : Int := (user.Locations.length : Int) - u.maxSavedLoc
      if hi < 0 ∨ (user.Locations.length : Int) < hi then
        { u := { u with UB := db }, ret := .error .sliceBoundsOutOfRange }
      else
        { u := { u with UB := deleteLocations db (user.Locations.take hi.toNat) },
          ret := .ok () }
    else { u := { u with UB := db }, ret := .ok () }

/-- Embedding of `func (u *UserIO) AddPicture(id string, pic string)`. -/
def AddPicture (u : UserIO) (id pic : String) : Result Unit :=
  match u.UB.GetByID id with
  | none => { u := u, ret := .error .nilPointerDereference }
  | some user =>
    let db := u.UB.Create (.picture { Id := 0, UserID := user.Id, Content := pic })
    if (user.Pictures.length : Int) > u.maxSavedPic then
      let hi : Int := (user.Pictures.length : Int) - u.maxSavedPic
      if hi < 0 ∨ (user.Pictures.length : Int) < hi then
        { u := { u with UB := db }, ret := .error .sliceBoundsOutOfRange }
      else
        { u := { u with UB := deletePictures db (user.Pictures.take hi.toNat) },
          ret := .ok () }
    else { u := { u with UB := db }, ret := .ok () }

/-- Embedding of `func (u *UserIO) DeleteUser(id string)`. -/
def DeleteUser (u : UserIO) (id : String) : Result Unit :=
  { u := { u with UB := u.UB.Delete (.user (u.UB.GetByID id)) }, ret := .ok () }

/-- Embedding of `func (u *UserIO) GetLocation(id string, idx int) string`:
the lines written by `fmt.Printf` and the string returned. -/
def GetLocation (u : UserIO) (id : String) (idx : Int) :
    Except Panic (List String × String) :=
  match u.UB.GetByID id with
  | none => .error .nilPointerDereference
  | some user =>
    if idx < 0 ∨ idx ≥ (user.Locations.length : Int) then
      .ok (["Location out of bounds: " ++ toString idx ++ ", max=" ++
              toString ((user.Locations.length : Int) - 1) ++ "\n"], "")
    else
      match user.Locations[idx.toNat]? with
      | none => .error .indexOutOfRange
      | some l => .ok ([], l.Position)

/-- Embedding of `func (u *UserIO) GetPicture(id string, idx int) string`. -/
def GetPicture (u : UserIO) (id : String) (idx : Int) : Except Panic String :=
  match u.UB.GetByID id with
  | none => .error .nilPointerDereference
  | some user =>
    if user.Pictures.length = 0 then .ok "Picture not found"
    else if idx < 0 then .error .indexOutOfRange
    else
      match user.Pictures[idx.toNat]? with
      | none => .error .indexOutOfRange
      | some p => .ok p.Content

/-- Embedding of `func (u *UserIO) GetPictureSize(id string) int`. -/
def GetPictureSize (u : UserIO) (id : String) : Except Panic Int :=
  match u.UB.GetByID id with
  | none => .error .nilPointerDereference
  | some user => .ok user.Pictures.length

/-- Embedding of `func (u *UserIO) GetLocationSize(id string) int`. -/
def GetLocationSize (u : UserIO) (id : String) : Except Panic Int :=
  match u.UB.GetByID id with
  | none => .error .nilPointerDereference
  | some user => .ok user.Locations.length

/-- Embedding of `func (u *UserIO) SetPrivateKey(id string, key string)`. -/
def SetPrivateKey (u : UserIO) (id key : String) : Result Unit :=
  match u.UB.GetByID id with
  | none => { u := u, ret := .error .nilPointerDereference }
  | some user =>
    { u := { u with UB := u.UB.Save (.user (some { user with PrivateKey := key })) },
      ret := .ok () }

/-- Embedding of `func (u *UserIO) SetPublicKey(id string, key string)`. -/
def SetPublicKey (u : UserIO) (id key : String) : Result Unit :=
  match u.UB.GetByID id with
  | none => { u := u, ret := .error .nilPointerDereference }
  | some user =>
    { u := { u with UB := u.UB.Save (.user (some { user with PublicKey := key })) },
      ret := .ok () }

/-- Embedding of `func (u *UserIO) SetCommandToUser(id string, ctu string)`. -/
def SetCommandToUser (u : UserIO) (id ctu : String) : Result Unit :=
  match u.UB.GetByID id with
  | none => { u := u, ret := .error .nilPointerDereference }
  | some user =>
    { u := { u with UB := u.UB.Save (.user (some { user with CommandToUser := ctu })) },
      ret := .ok () }

/-- Embedding of `func (u *UserIO) SetPushUrl(id string, pushUrl string)`. -/
def SetPushUrl (u : UserIO) (id pushUrl : String) : Result Unit :=
  match u.UB.GetByID id with
  | none => { u := u, ret := .error .nilPointerDereference }
  | some user =>
    { u := { u with UB := u.UB.Save (.user (some { user with PushUrl := pushUrl })) },
      ret := .ok () }

end UserIO

/-! ## Credential check (`RequestAccess`) and its collaborators -/

/-- The case tables of Go's package `unicode` for the runes from U+0080 up,
which `strings.ToLower` and `strings.EqualFold` consult there: `ToLower r` is
`unicode.ToLower(r)`, and `FoldsTo sr tr` tells whether the walk of
`unicode.SimpleFold` that starts at `sr` reaches `tr`. -/
structure Unicode where
  ToLower : Char → Char
  FoldsTo : Char → Char → Bool

/-- Go's `unicode.ToLower(r)`: below U+0080 the letters `A`-`Z` are moved to
`a`-`z` and every other rune is kept; from U+0080 up the table decides. -/
def Unicode.toLowerRune (U : Unicode) (r : Char) : Char :=
  if r.toNat < 128 then
    if 65 ≤ r.toNat ∧ r.toNat ≤ 90 then Char.ofNat (r.toNat + 32) else r
  else U.ToLower r

/-- One round of the loop of Go's `strings.EqualFold` on the runes `sr` and
`tr`: equal runes pass; otherwise, with the smaller one first, two ASCII runes
pass when the smaller is a letter `A`-`Z` and the larger is 32 above it, and
any other pair passes when `SimpleFold` leads from the smaller to the
larger. -/
def Unicode.equalFoldRune (U : Unicode) (sr tr : Char) : Bool :=
  if tr = sr then true
  else
    let lo := if tr.toNat < sr.toNat then tr else sr
    let hi := if tr.toNat < sr.toNat then sr else tr
    if hi.toNat < 128 then
      decide (65 ≤ lo.toNat ∧ lo.toNat ≤ 90 ∧ hi.toNat = lo.toNat + 32)
    else U.FoldsTo lo hi

/-- The loop of `strings.EqualFold`, on the runes of the two strings: it stops
with false at the first pair that does not pass, and returns whether both
strings are exhausted otherwise. -/
def Unicode.equalFoldRunes (U : Unicode) : List Char → List Char → Bool
  | [], [] => true
  | sr :: s, tr :: t => U.equalFoldRune sr tr && U.equalFoldRunes s t
  | _, _ => false

/-- Go's `strings.ToLower(s)`: every rune mapped by `unicode.ToLower`. -/
def Unicode.stringsToLower (U : Unicode) (s : String) : String :=
  String.mk (s.toList.map U.toLowerRune)

/-- Go's `strings.EqualFold(s, t)`. -/
def Unicode.stringsEqualFold (U : Unicode) (s t : String) : Bool :=
  U.equalFoldRunes s.toList t.toList

/-- Tables without any case pair from U+0080 up; they are not consulted on
ASCII strings. -/
def Unicode.plain : Unicode :=
  { ToLower := fun r => r, FoldsTo := fun _ _ => false }

/-- Two runes that differ at most in letter case: the same rune, or a letter
`A`-`Z` and the letter `a`-`z` 32 code points above it (either way round), or,
from U+0080 up, two runes with the same lower-case form in the table. -/
def Unicode.sameLetter (U : Unicode) (a b : Char) : Bool :=
  a == b ||
  decide (65 ≤ a.toNat ∧ a.toNat ≤ 90 ∧ b.toNat = a.toNat + 32) ||
  decide (65 ≤ b.toNat ∧ b.toNat ≤ 90 ∧ a.toNat = b.toNat + 32) ||
  (decide (128 ≤ a.toNat ∧ 128 ≤ b.toNat) && U.ToLower a == U.ToLower b)

/-- Two rune sequences equal when letter case is ignored: the same length, and
at every position two runes that differ at most in letter case. -/
def Unicode.sameLetters (U : Unicode) : List Char → List Char → Bool
  | [], [] => true
  | a :: s, b :: t => U.sameLetter a b && U.sameLetters s t
  | _, _ => false

/-- Two strings equal when letter case is ignored. -/
def Unicode.equalIgnoringCase (U : Unicode) (s t : String) : Bool :=
  U.sameLetters s.toList t.toList

/-- The interface `AccessController` as `RequestAccess` consumes it: both
methods act on a state `σ` of the collaborator, `PutAccess` returns a token. -/
structure AccessController (σ Token : Type) where
  ResetLock : String → σ → σ
  PutAccess : String → σ → Token × σ

/-- A call received by the collaborator. -/
inductive Call where
  | ResetLock (id : String)
  | PutAccess (id : String)
  deriving DecidableEq, Repr

/-- The collaborator observed: the same controller, which also appends every
call it receives to a log. -/
def AccessController.observed {σ Token : Type} (ACC : AccessController σ Token) :
    AccessController (σ × List Call) Token :=
  { ResetLock := fun id s => (ACC.ResetLock id s.1, s.2 ++ [Call.ResetLock id]),
    PutAccess := fun id s =>
      ((ACC.PutAccess id s.1).1, ((ACC.PutAccess id s.1).2, s.2 ++ [Call.PutAccess id])) }

/-- The comparison of `RequestAccess`:
`strings.EqualFold(strings.ToLower(stored), strings.ToLower(hashedPW))`. -/
def hashedPasswordMatches (U : Unicode) (stored hashedPW : String) : Bool :=
  U.stringsEqualFold (U.stringsToLower stored) (U.stringsToLower hashedPW)

/-- Embedding of `func (u *UserIO) RequestAccess(id string, hashedPW string)
(bool, AccessToken)`: the pair returned and the state of the collaborator after
the call.  `default` is the zero value of `AccessToken` (`var a AccessToken`). -/
def UserIO.RequestAccess {σ Token : Type} [Inhabited Token] (u : UserIO)
    (U : Unicode) (ACC : AccessController σ Token) (acc : σ)
    (id hashedPW : String) : (Bool × Token) × σ :=
  match u.UB.GetByID id with
  | some user =>
    if hashedPasswordMatches U user.HashedPassword hashedPW then
      ((true, (ACC.PutAccess id (ACC.ResetLock id acc)).1),
        (ACC.PutAccess id (ACC.ResetLock id acc)).2)
    else ((false, default), acc)
  | none => ((false, default), acc)

/-! ## Store constraints -/

namespace FMDDB

/-- Primary key of the users table: keys are positive, ascending, and below
the next key of the sequence, which is positive. -/
def UserKeys (db : FMDDB) : Prop :=
  (db.users.map (fun r => r.Id)).Pairwise (· < ·) ∧ 0 < db.userSeq ∧
    ∀ r ∈ db.users, 0 < r.Id ∧ r.Id < db.userSeq

/-- Unique index on `UID`: no two accounts share a UID. -/
def UniqueUIDs (db : FMDDB) : Prop :=
  (db.users.map (fun r => r.UID)).Nodup

/-- Primary key of the locations table. -/
def LocationKeys (db : FMDDB) : Prop :=
  (db.locations.map (fun l => l.Id)).Pairwise (· < ·) ∧ 0 < db.locationSeq ∧
    ∀ l ∈ db.locations, 0 < l.Id ∧ l.Id < db.locationSeq

/-- Primary key of the pictures table. -/
def PictureKeys (db : FMDDB) : Prop :=
  (db.pictures.map (fun p => p.Id)).Pairwise (· < ·) ∧ 0 < db.pictureSeq ∧
    ∀ p ∈ db.pictures, 0 < p.Id ∧ p.Id < db.pictureSeq

/-- A store state: the constraints of the three tables hold and every account
carries a minted, hence non-empty, identifier. -/
structure Valid (db : FMDDB) : Prop where
  userKeys : db.UserKeys
  uniqueUIDs : db.UniqueUIDs
  locationKeys : db.LocationKeys
  pictureKeys : db.PictureKeys
  minted : ∀ r ∈ db.users, r.UID ≠ ""

/-- The account with UID `id` exists: a row of the users table carries it. -/
def HasAccount (db : FMDDB) (id : String) : Prop :=
  ∃ r ∈ db.users, r.UID = id

end FMDDB

/-! ## Sequences of account manager operations -/

/-- The account manager operations that write to the store. -/
inductive Op where
  | CreateNewUser (privKey pubKey salt hashedPassword : String)
  | UpdateUserPassword (id privKey salt hashedPassword : String)
  | SetPrivateKey (id key : String)
  | SetPublicKey (id key : String)
  | SetCommandToUser (id ctu : String)
  | SetPushUrl (id pushUrl : String)
  | AddLocation (id loc : String)
  | AddPicture (id pic : String)
  | DeleteUser (id : String)
  deriving DecidableEq, Repr

/-- State between two operations: the manager with its database, and the
random source. -/
structure World where
  u : UserIO
  rnd : RandSource
  deriving DecidableEq, Repr

/-- One operation: the world it leaves (whether it returned or panicked) and
the identifier returned when it is a `CreateNewUser` that returned.  `none`
when `generateNewId` is still looping after `fuel` rounds. -/
def Op.exec (fuel : Nat) (w : World) : Op → Option (World × Option String)
  | .CreateNewUser privKey pubKey salt hashedPassword =>
    match w.u.CreateNewUser fuel w.rnd privKey pubKey salt hashedPassword with
    | none => none
    | some (r, rnd') =>
      some ({ u := r.u, rnd := rnd' },
        match r.ret with
        | .ok id => some id
        | .error _ => none)
  | .UpdateUserPassword id privKey salt hashedPassword =>
    some ({ w with u := (w.u.UpdateUserPassword id privKey salt hashedPassword).u }, none)
  | .SetPrivateKey id key => some ({ w with u := (w.u.SetPrivateKey id key).u }, none)
  | .SetPublicKey id key => some ({ w with u := (w.u.SetPublicKey id key).u }, none)
  | .SetCommandToUser id ctu => some ({ w with u := (w.u.SetCommandToUser id ctu).u }, none)
  | .SetPushUrl id pushUrl => some ({ w with u := (w.u.SetPushUrl id pushUrl).u }, none)
  | .AddLocation id loc => some ({ w with u := (w.u.AddLocation id loc).u }, none)
  | .AddPicture id pic => some ({ w with u := (w.u.AddPicture id pic).u }, none)
  | .DeleteUser id => some ({ w with u := (w.u.DeleteUser id).u }, none)

/-- A sequence of operations on one store instance: the final world and the
identifiers returned by its `CreateNewUser` calls, in order. -/
def runOps (fuel : Nat) : List Op → World → Option (World × List String)
  | [], w => some (w, [])
  | op :: ops, w =>
    match op.exec fuel w with
    | none => none
    | some (w', id?) =>
      match runOps fuel ops w' with
      | none => none
      | some (w'', ids) => some (w'', id?.toList ++ ids)

/-- Whether the operation is a `DeleteUser` that can remove the account with
UID `id`: a `DeleteUser(id)`, or a `DeleteUser("")`, whose lookup has no
condition and loads the first account. -/
def Op.removes (id : String) : Op → Bool
  | .DeleteUser id' => id' == id || id' == ""
  | _ => false

/-- A sequence of `AddLocation` calls, each with its `id` and `loc`. -/
def UserIO.addLocations (u : UserIO) (calls : List (String × String)) : UserIO :=
  calls.foldl (fun v c => (v.AddLocation c.1 c.2).u) u

/-- A sequence of `AddPicture` calls, each with its `id` and `pic`. -/
def UserIO.addPictures (u : UserIO) (calls : List (String × String)) : UserIO :=
  calls.foldl (fun v c => (v.AddPicture c.1 c.2).u) u

/-! ## Sample states -/

/-- A store with one account: key 1, UID `a`, hashed password `HASH`. -/
def sampleStore : FMDDB :=
  { FMDDB.empty with
    users := [{ Id := 1, UID := "a", Salt := "", HashedPassword := "HASH", PrivateKey := "",
                PublicKey := "", CommandToUser := "", PushUrl := "", Locations := [],
                Pictures := [] }],
    userSeq := 2 }

/-- A manager on `sampleStore`: identifiers of one character, caps of three
locations and three pictures. -/
def sampleManager : UserIO :=
  { userIDLength := 1, maxSavedLoc := 3, maxSavedPic := 3, UB := sampleStore }

/-- A collaborator whose state counts the tokens issued and whose tokens are
numbered. -/
def sampleACC : AccessController Nat Nat :=
  { ResetLock := fun _ s => s, PutAccess := fun _ s => (s + 1, s + 1) }

/-- A manager on an empty store, with a random source that delivers the
indices of `a`, `a`, `b`. -/
def sampleWorld : World :=
  { u := { userIDLength := 1, maxSavedLoc := 3, maxSavedPic := 3, UB := FMDDB.empty },
    rnd := [0, 0, 1] }

/-- A store with two accounts: `a` with one location and one picture, `b` with
one location. -/
def pairStore : FMDDB :=
  { users := [{ Id := 1, UID := "a", Salt := "", HashedPassword := "HASH", PrivateKey := "",
                PublicKey := "", CommandToUser := "", PushUrl := "", Locations := [],
                Pictures := [] },
              { Id := 2, UID := "b", Salt := "", HashedPassword := "hash2", PrivateKey := "",
                PublicKey := "", CommandToUser := "", PushUrl := "", Locations := [],
                Pictures := [] }],
    locations := [{ Id := 1, UserID := 1, Position := "L1" },
                  { Id := 2, UserID := 2, Position := "M1" }],
    pictures := [{ Id := 1, UserID := 1, Content := "P1" }],
    userSeq := 3, locationSeq := 3, pictureSeq := 2 }

/-- A manager on `pairStore`. -/
def pairManager : UserIO :=
  { userIDLength := 1, maxSavedLoc := 3, maxSavedPic := 3, UB := pairStore }

/-- A store whose account `a` holds three locations and three pictures. -/
def fullStore : FMDDB :=
  { users := [{ Id := 1, UID := "a", Salt := "", HashedPassword := "HASH", PrivateKey := "",
                PublicKey := "", CommandToUser := "", PushUrl := "", Locations := [],
                Pictures := [] }],
    locations := [{ Id := 1, UserID := 1, Position := "L1" },
                  { Id := 2, UserID := 1, Position := "L2" },
                  { Id := 3, UserID := 1, Position := "L3" }],
    pictures := [{ Id := 1, UserID := 1, Content := "P1" },
                 { Id := 2, UserID := 1, Content := "P2" },
                 { Id := 3, UserID := 1, Content := "P3" }],
    userSeq := 2, locationSeq := 4, pictureSeq := 4 }

/-- A manager on `fullStore` with caps of one location and one picture. -/
def fullManager : UserIO :=
  { userIDLength := 1, maxSavedLoc := 1, maxSavedPic := 1, UB := fullStore }

/-- A manager on `sampleStore`, where the account `a` exists, with a random
source that delivers the indices of `a` and then of `b`. -/
def busyWorld : World :=
  { u := sampleManager, rnd := [0, 1] }

/-- A manager on an empty store, with a random source that delivers the
indices of `a`, `b`, `a`, `c`. -/
def longWorld : World :=
  { u := { userIDLength := 1, maxSavedLoc := 3, maxSavedPic := 3, UB := FMDDB.empty },
    rnd := [0, 1, 0, 2] }

/-- The world a sequence of operations leaves when started in `longWorld`. -/
def longAfter (ops : List Op) : World :=
  match runOps 1 ops longWorld with
  | some (w, _) => w
  | none => longWorld

/-- What `CreateNewUser` returns in `busyWorld`. -/
def busyCreated : Result String × RandSource :=
  match busyWorld.u.CreateNewUser 1 busyWorld.rnd "k" "p" "s" "h" with
  | some p => p
  | none => ({ u := busyWorld.u, ret := .error .randomSourceFailure }, [])

/-! ## The alphabet -/

theorem letters_ok : ∀ c ∈ letters, isLetterOrDigit c = true ∧ c ∉ excluded := by
  decide

/-! ## Lists keyed by a primary key -/

section Keyed

variable {α : Type} (key : α → Nat)

theorem key_injOn {l : List α} (h : (l.map key).Pairwise (· < ·)) {a b : α}
    (ha : a ∈ l) (hb : b ∈ l) (hab : key a = key b) : a = b := by
  have hn : (l.map key).Nodup := h.imp (fun h => Nat.ne_of_lt h)
  exact List.inj_on_of_nodup_map hn ha hb hab

theorem find?_of_nodup {β : Type} [DecidableEq β] (f : α → β) {l : List α}
    (h : (l.map f).Nodup) {a : α} (ha : a ∈ l) :
    l.find? (fun r => f r == f a) = some a := by
  induction l with
  | nil => simp at ha
  | cons x xs ih =>
    simp only [List.map_cons, List.nodup_cons] at h
    by_cases hx : f x = f a
    · have : x = a := by
        rcases List.mem_cons.mp ha with rfl | h'
        · rfl
        · exact absurd (hx ▸ List.mem_map_of_mem f h') h.1
      subst this
      simp
    · have hmem : a ∈ xs := by
        rcases List.mem_cons.mp ha with rfl | h'
        · exact absurd rfl hx
        · exact h'
      simp [List.find?_cons, hx, ih h.2 hmem]

/-- Removing from a keyed list the rows whose key is one of its first `n` keys
leaves the list without its first `n` rows. -/
theorem filter_take_keys {l : List α} (h : (l.map key).Pairwise (· < ·)) (n : Nat) :
    l.filter (fun x => !(l.take n).any (fun d => key d == key x)) = l.drop n := by
  have hn : (l.map key).Nodup := h.imp (fun h => Nat.ne_of_lt h)
  conv_lhs => enter [2]; rw [← List.take_append_drop n l]
  rw [List.filter_append]
  have h1 : (l.take n).filter (fun x => !(l.take n).any (fun d => key d == key x)) = [] := by
    rw [List.filter_eq_nil_iff]
    intro a ha
    simp only [Bool.not_eq_true, Bool.not_eq_false_eq_eq_true, List.any_eq_true, beq_iff_eq,
      Bool.not_not]
    exact ⟨a, ha, rfl⟩
  have h2 : (l.drop n).filter (fun x => !(l.take n).any (fun d => key d == key x)) = l.drop n := by
    rw [List.filter_eq_self]
    intro a ha
    simp only [Bool.not_eq_true', List.any_eq_false, beq_iff_eq]
    intro d hd hda
    rw [← List.take_append_drop n l, List.map_append] at hn
    exact (List.nodup_append.mp hn).2.2 (List.mem_map_of_mem key hd)
      (hda ▸ List.mem_map_of_mem key ha)
  rw [h1, h2, List.nil_append]

/-- The rows of owner `k` after a row `new` of that owner is appended and the
first `n` rows of `k` are removed by key. -/
theorem keyed_after_same (owner : α → Nat) {l : List α} {new : α} {k : Nat} (n : Nat)
    (hkeys : (l.map key).Pairwise (· < ·)) (hb : ∀ x ∈ l, key x < key new)
    (hnew : owner new = k) :
    ((l ++ [new]).filter (fun x =>
        !((l.filter (fun y => owner y == k)).take n).any (fun d => key d == key x))).filter
      (fun y => owner y == k) =
      (l.filter (fun y => owner y == k)).drop n ++ [new] := by
  have hold : ((l.filter (fun y => owner y == k)).map key).Pairwise (· < ·) :=
    hkeys.sublist ((List.filter_sublist _).map _)
  rw [List.filter_comm, List.filter_append, List.filter_append]
  have h1 : [new].filter (fun y => owner y == k) = [new] := by simp [hnew]
  have h2 : [new].filter (fun x =>
      !((l.filter (fun y => owner y == k)).take n).any (fun d => key d == key x)) = [new] := by
    rw [List.filter_eq_self]
    intro a ha
    rw [List.mem_singleton] at ha
    subst ha
    simp only [Bool.not_eq_true', List.any_eq_false, beq_iff_eq]
    intro d hd hda
    have := hb d (List.mem_of_mem_filter (List.mem_of_mem_take hd))
    omega
  rw [h1, h2, filter_take_keys key hold n]

/-- The rows of another owner `k'` are not touched by that update. -/
theorem keyed_after_other (owner : α → Nat) {l : List α} {new : α} {k k' : Nat} (n : Nat)
    (hkeys : (l.map key).Pairwise (· < ·)) (hnew : owner new = k) (hk : k' ≠ k) :
    ((l ++ [new]).filter (fun x =>
        !((l.filter (fun y => owner y == k)).take n).any (fun d => key d == key x))).filter
      (fun y => owner y == k') =
      l.filter (fun y => owner y == k') := by
  rw [List.filter_comm, List.filter_append]
  have hk2 : ¬ k = k' := fun h => hk h.symm
  have h1 : [new].filter (fun y => owner y == k') = [] := by
    simp [hnew, hk2]
  rw [h1, List.append_nil, List.filter_eq_self]
  intro a ha
  simp only [Bool.not_eq_true', List.any_eq_false, beq_iff_eq]
  intro d hd hda
  have hd' := List.mem_of_mem_take hd
  have had : d = a :=
    key_injOn key hkeys (List.mem_of_mem_filter hd') (List.mem_of_mem_filter ha) hda
  have ho1 : owner d = k := by simpa using (List.mem_filter.mp hd').2
  have ho2 : owner a = k' := by simpa using (List.mem_filter.mp ha).2
  exact hk (by rw [← ho2, ← had, ho1])

end Keyed

theorem genRunes_spec (draws : List Nat) (rest : RandSource)
    (h : ∀ d ∈ draws, d < letters.length) :
    ∃ s, genRunes draws.length (draws ++ rest) = .ok (s, rest) ∧
      s.length = draws.length ∧ ∀ c ∈ s, c ∈ letters := by
  induction draws with
  | nil => exact ⟨[], rfl, rfl, by simp⟩
  | cons d ds ih =>
    have hd : d < letters.length := h d (by simp)
    obtain ⟨s, hs, hl, hc⟩ := ih (fun x hx => h x (by simp [hx]))
    refine ⟨letters[d] :: s, ?_, by simp [hl], ?_⟩
    · simp [genRunes, List.getElem?_eq_getElem hd, hs]
    · intro c hc'
      rcases List.mem_cons.mp hc' with rfl | h'
      · exact List.getElem_mem _
      · exact hc c h'

/-- C9: for every length `n` and every `n` draws below the alphabet size,
`genRandomString n` returns (no panic, no index out of bounds) a string of
exactly `n` characters, each a letter or digit and none of `0 O l I 1`. -/
theorem genRandomString_alphabet (n : Nat) (draws : List Nat) (rest : RandSource)
    (hn : draws.length = n) (hd : ∀ d ∈ draws, d < letters.length) :
    ∃ s : String, genRandomString (n : Int) (draws ++ rest) = .ok (s, rest) ∧
      s.length = n ∧
      ∀ c ∈ s.toList, isLetterOrDigit c = true ∧ c ∉ excluded := by
  obtain ⟨s, hs, hl, hc⟩ := genRunes_spec draws rest hd
  subst hn
  refine ⟨String.mk s, ?_, ?_, ?_⟩
  · simp [genRandomString, hs]
  · simpa [String.length] using hl
  · intro c hc'
    exact letters_ok c (hc c hc')

/-! ## The lookup `GetByID` -/

/-- The user value `GetByID` builds from a row: the row with its two
associations loaded. -/
theorem FMDDB.GetByID_some {db : FMDDB} {id : String} {user : FMDUser}
    (h : db.GetByID id = some user) :
    ∃ r ∈ db.users, r.Id ≠ 0 ∧ (id ≠ "" → r.UID = id) ∧
      user = { r with
        Locations := db.locations.filter (fun l => l.UserID == r.Id),
        Pictures := db.pictures.filter (fun p => p.UserID == r.Id) } := by
  unfold FMDDB.GetByID at h
  by_cases hid : id = ""
  · simp only [hid, if_true] at h
    cases hh : db.users.head? with
    | none => simp [hh] at h
    | some r =>
      simp only [hh] at h
      by_cases h0 : r.Id = 0
      · simp [h0] at h
      · simp only [h0, if_false, Option.some.injEq] at h
        exact ⟨r, List.mem_of_mem_head? hh, h0, fun hc => absurd hid hc, h.symm⟩
  · simp only [hid, if_false] at h
    cases hh : db.users.find? (fun r => r.UID == id) with
    | none => simp [hh] at h
    | some r =>
      simp only [hh] at h
      by_cases h0 : r.Id = 0
      · simp [h0] at h
      · simp only [h0, if_false, Option.some.injEq] at h
        have hp := List.find?_some hh
        exact ⟨r, List.mem_of_find?_eq_some hh, h0, fun _ => by simpa using hp, h.symm⟩

theorem FMDDB.GetByID_of_mem {db : FMDDB} (hk : db.UserKeys) (hu : db.UniqueUIDs)
    {r : FMDUser} (hr : r ∈ db.users) (hne : r.UID ≠ "") :
    db.GetByID r.UID = some { r with
      Locations := db.locations.filter (fun l => l.UserID == r.Id),
      Pictures := db.pictures.filter (fun p => p.UserID == r.Id) } := by
  have h0 : r.Id ≠ 0 := Nat.pos_iff_ne_zero.mp (hk.2.2 r hr).1
  have hf : db.users.find? (fun x => x.UID == r.UID) = some r :=
    find?_of_nodup (fun x : FMDUser => x.UID) (show (db.users.map _).Nodup from hu) hr
  unfold FMDDB.GetByID
  simp only [hne, if_false, hf, h0]

theorem FMDDB.GetByID_none {db : FMDDB} (hk : db.UserKeys) {id : String}
    (h : db.GetByID id = none) : ∀ r ∈ db.users, r.UID ≠ id := by
  intro r hr hid
  unfold FMDDB.GetByID at h
  by_cases he : id = ""
  · simp only [he, if_true] at h
    cases hh : db.users.head? with
    | none =>
      rw [List.head?_eq_none_iff] at hh
      rw [hh] at hr
      simp at hr
    | some x =>
      have h0 : x.Id ≠ 0 := Nat.pos_iff_ne_zero.mp (hk.2.2 x (List.mem_of_mem_head? hh)).1
      simp [hh, h0] at h
  · simp only [he, if_false] at h
    cases hh : db.users.find? (fun r => r.UID == id) with
    | none =>
      rw [List.find?_eq_none] at hh
      exact hh r hr (by simpa using hid)
    | some x =>
      have h0 : x.Id ≠ 0 :=
        Nat.pos_iff_ne_zero.mp (hk.2.2 x (List.mem_of_find?_eq_some hh)).1
      simp [hh, h0] at h

/-! ## Case-insensitive comparison -/

theorem Unicode.sameLetter_toLower (U : Unicode) (a b : Char)
    (h : U.sameLetter a b = true) : U.toLowerRune a = U.toLowerRune b := by
  unfold Unicode.sameLetter at h
  simp only [Bool.or_eq_true, beq_iff_eq, decide_eq_true_eq, Bool.and_eq_true] at h
  unfold Unicode.toLowerRune
  rcases h with ((h | h) | h) | h
  · rw [h]
  · have ha : a.toNat < 128 := by omega
    have hb : b.toNat < 128 := by omega
    have hb' : ¬ (65 ≤ b.toNat ∧ b.toNat ≤ 90) := by omega
    simp only [ha, hb, if_true, h.1, h.2.1, and_self, hb', if_false]
    rw [← h.2.2, Char.ofNat_toNat]
  · have ha : a.toNat < 128 := by omega
    have hb : b.toNat < 128 := by omega
    have ha' : ¬ (65 ≤ a.toNat ∧ a.toNat ≤ 90) := by omega
    simp only [ha, hb, if_true, h.1, h.2.1, and_self, ha', if_false]
    rw [← h.2.2, Char.ofNat_toNat]
  · have ha : ¬ a.toNat < 128 := by omega
    have hb : ¬ b.toNat < 128 := by omega
    simp only [ha, hb, if_false]
    exact h.2

theorem Unicode.sameLetters_map (U : Unicode) (s t : List Char)
    (h : U.sameLetters s t = true) : s.map U.toLowerRune = t.map U.toLowerRune := by
  induction s generalizing t with
  | nil =>
    cases t with
    | nil => rfl
    | cons b t => simp [Unicode.sameLetters] at h
  | cons a s ih =>
    cases t with
    | nil => simp [Unicode.sameLetters] at h
    | cons b t =>
      simp only [Unicode.sameLetters, Bool.and_eq_true] at h
      simp only [List.map_cons, U.sameLetter_toLower a b h.1, ih t h.2]

theorem Unicode.equalFoldRunes_self (U : Unicode) (s : List Char) :
    U.equalFoldRunes s s = true := by
  induction s with
  | nil => rfl
  | cons a s ih => simp [Unicode.equalFoldRunes, Unicode.equalFoldRune, ih]

/-- A password equal to the stored one when letter case is ignored passes the
comparison of `RequestAccess`. -/
theorem hashedPasswordMatches_of_equalIgnoringCase (U : Unicode) (stored hashedPW : String)
    (h : U.equalIgnoringCase stored hashedPW = true) :
    hashedPasswordMatches U stored hashedPW = true := by
  unfold hashedPasswordMatches Unicode.stringsEqualFold Unicode.stringsToLower
  rw [U.sameLetters_map _ _ h]
  exact U.equalFoldRunes_self _

/-! ## `RequestAccess` -/

/-- C2: in every store state, for the UID `id` of an existing account and a
`hashedPW` equal to the stored `HashedPassword` when letter case is ignored,
`RequestAccess` returns `(true, t)` with `t` the token of the collaborator's
`PutAccess(id)`, and the collaborator has received exactly `ResetLock(id)`
followed by `PutAccess(id)`. -/
theorem RequestAccess_granted {σ Token : Type} [Inhabited Token] (u : UserIO)
    (U : Unicode) (ACC : AccessController σ Token) (acc : σ) (log : List Call)
    (id hashedPW : String) (r : FMDUser)
    (hv : u.UB.Valid) (hr : r ∈ u.UB.users) (hid : r.UID = id)
    (hpw : U.equalIgnoringCase r.HashedPassword hashedPW = true) :
    u.RequestAccess U ACC.observed (acc, log) id hashedPW =
      ((true, (ACC.PutAccess id (ACC.ResetLock id acc)).1),
        ((ACC.PutAccess id (ACC.ResetLock id acc)).2,
          log ++ [Call.ResetLock id, Call.PutAccess id])) := by
  subst hid
  have hg := FMDDB.GetByID_of_mem hv.userKeys hv.uniqueUIDs hr (hv.minted r hr)
  have hm := hashedPasswordMatches_of_equalIgnoringCase U r.HashedPassword hashedPW hpw
  simp [ UserIO.RequestAccess, hg, hm, AccessController.observed]

/-- Outside the empty identifier, `RequestAccess` refuses an identifier that
no account carries and a password that does not match, without calling the
collaborator. -/
theorem RequestAccess_refused {σ Token : Type} [Inhabited Token] (u : UserIO)
    (U : Unicode) (ACC : AccessController σ Token) (acc : σ) (log : List Call)
    (id hashedPW : String) (hne : id ≠ "")
    (h : ∀ r ∈ u.UB.users, r.UID = id →
      hashedPasswordMatches U r.HashedPassword hashedPW = false) :
    u.RequestAccess U ACC.observed (acc, log) id hashedPW =
      ((false, default), (acc, log)) := by
  unfold UserIO.RequestAccess
  cases hg : u.UB.GetByID id with
  | none => rfl
  | some user =>
    obtain ⟨r, hr, -, hid, huser⟩ := FMDDB.GetByID_some hg
    have := h r hr (hid hne)
    simp [huser, this]

/-! ## `Delete` and `DeleteUser` -/

theorem FMDDB.Delete_userKeys {db : FMDDB} (h : db.UserKeys) (e : Entity) :
    (db.Delete e).UserKeys := by
  rcases e with (_ | value) | value | value
  · exact h
  · unfold FMDDB.Delete
    by_cases h0 : value.Id = 0
    · simpa [h0] using h
    · simp only [h0, if_false]
      exact ⟨h.1.sublist ((List.filter_sublist _).map _), h.2.1,
        fun r hr => h.2.2 r (List.mem_of_mem_filter hr)⟩
  · unfold FMDDB.Delete
    by_cases h0 : value.Id = 0
    · simpa [h0] using h
    · simpa [h0] using h
  · unfold FMDDB.Delete
    by_cases h0 : value.Id = 0
    · simpa [h0] using h
    · simpa [h0] using h

theorem FMDDB.Delete_uniqueUIDs {db : FMDDB} (h : db.UniqueUIDs) (e : Entity) :
    (db.Delete e).UniqueUIDs := by
  rcases e with (_ | value) | value | value
  · exact h
  · unfold FMDDB.Delete
    by_cases h0 : value.Id = 0
    · simpa [h0] using h
    · simp only [h0, if_false]
      exact List.Nodup.sublist ((List.filter_sublist _).map _) h
  · unfold FMDDB.Delete
    by_cases h0 : value.Id = 0
    · simpa [h0] using h
    · simpa [h0] using h
  · unfold FMDDB.Delete
    by_cases h0 : value.Id = 0
    · simpa [h0] using h
    · simpa [h0] using h

/-- What `DeleteUser` does for the UID `id` of an existing account `r`: the
user row goes, so `GetByID(id)` returns nil afterwards; both child tables are
left as they are; every other account is still there and is loaded with the
same columns, locations and pictures. -/
theorem DeleteUser_removes_account (u : UserIO) (id : String) (r : FMDUser)
    (hv : u.UB.Valid) (hr : r ∈ u.UB.users) (hid : r.UID = id) :
    (u.DeleteUser id).ret = .ok () ∧
    (u.DeleteUser id).u.UB.GetByID id = none ∧
    (u.DeleteUser id).u.UB.locations = u.UB.locations ∧
    (u.DeleteUser id).u.UB.pictures = u.UB.pictures ∧
    (∀ r' ∈ u.UB.users, r'.UID ≠ id →
      r' ∈ (u.DeleteUser id).u.UB.users ∧
      (u.DeleteUser id).u.UB.GetByID r'.UID = u.UB.GetByID r'.UID) := by
  subst hid
  have hne := hv.minted r hr
  have h0 : r.Id ≠ 0 := Nat.pos_iff_ne_zero.mp (hv.userKeys.2.2 r hr).1
  have hg := FMDDB.GetByID_of_mem hv.userKeys hv.uniqueUIDs hr hne
  have hk' : ((u.DeleteUser r.UID).u.UB).UserKeys := FMDDB.Delete_userKeys hv.userKeys _
  have hu' : ((u.DeleteUser r.UID).u.UB).UniqueUIDs := FMDDB.Delete_uniqueUIDs hv.uniqueUIDs _
  have hdb : (u.DeleteUser r.UID).u.UB =
      { u.UB with users := u.UB.users.filter (fun x => x.Id != r.Id) } := by
    simp [ UserIO.DeleteUser, hg, FMDDB.Delete, h0]
  have hdiff : ∀ r' ∈ u.UB.users, r'.UID ≠ r.UID → r'.Id ≠ r.Id := by
    intro r' hr' hne' hkey
    exact hne' (congrArg _ (key_injOn (fun x : FMDUser => x.Id) hv.userKeys.1 hr' hr hkey))
  refine ⟨rfl, ?_, by rw [hdb], by rw [hdb], ?_⟩
  · cases hg' : (u.DeleteUser r.UID).u.UB.GetByID r.UID with
    | none => rfl
    | some user =>
      exfalso
      obtain ⟨x, hx, -, hxid, -⟩ := FMDDB.GetByID_some hg'
      rw [hdb] at hx
      simp only [List.mem_filter, bne_iff_ne, ne_eq] at hx
      have : x = r :=
        List.inj_on_of_nodup_map hv.uniqueUIDs hx.1 hr (hxid hne)
      exact hx.2 (congrArg _ this)
  · intro r' hr' hne'
    have hkey := hdiff r' hr' hne'
    have hmem : r' ∈ (u.DeleteUser r.UID).u.UB.users := by
      rw [hdb]
      simp [List.mem_filter, hr', hkey]
    refine ⟨hmem, ?_⟩
    rw [FMDDB.GetByID_of_mem hk' hu' hmem (hv.minted r' hr'),
      FMDDB.GetByID_of_mem hv.userKeys hv.uniqueUIDs hr' (hv.minted r' hr'), hdb]

/-- A `DeleteUser` for another, non-empty identifier keeps the account with
UID `id1`. -/
theorem DeleteUser_keeps (u : UserIO) (id id1 : String) (hk : u.UB.UserKeys)
    (h1 : id ≠ id1) (h2 : id ≠ "")
    (hmem : id1 ∈ u.UB.users.map (fun r => r.UID)) :
    id1 ∈ (u.DeleteUser id).u.UB.users.map (fun r => r.UID) := by
  obtain ⟨x, hx, hxid⟩ := List.mem_map.mp hmem
  unfold UserIO.DeleteUser
  cases hg : u.UB.GetByID id with
  | none => exact hmem
  | some user =>
    obtain ⟨r, hr, h0, hrid, huser⟩ := FMDDB.GetByID_some hg
    have hId : user.Id = r.Id := by rw [huser]
    have hne : x.Id ≠ r.Id := by
      intro hkey
      have : x = r := key_injOn (fun x : FMDUser => x.Id) hk.1 hx hr hkey
      exact h1 (by rw [← hrid h2, ← this, hxid])
    simp only [FMDDB.Delete, hId, h0, if_false]
    exact List.mem_map.mpr ⟨x, List.mem_filter.mpr ⟨hx, by simpa using hne⟩, hxid⟩

/-! ## `AddLocation` -/

theorem deleteLocations_eq (db : FMDDB) (ls : List Location) (h0 : ∀ l ∈ ls, l.Id ≠ 0) :
    UserIO.deleteLocations db ls =
      { db with locations :=
          db.locations.filter (fun x => !ls.any (fun d => d.Id == x.Id)) } := by
  induction ls generalizing db with
  | nil => simp [ UserIO.deleteLocations]
  | cons d ds ih =>
    have hd : d.Id ≠ 0 := h0 d (by simp)
    have ih' := ih (db.Delete (.location d)) (fun l hl => h0 l (by simp [hl]))
    simp only [ UserIO.deleteLocations, List.foldl_cons] at ih' ⊢
    rw [ih']
    simp only [FMDDB.Delete, hd, if_false, List.filter_filter, List.any_cons]
    congr 1
    apply List.filter_congr
    intro x _
    by_cases hx : d.Id = x.Id
    · simp [hx]
    · have e1 : (x.Id != d.Id) = true := by simpa using fun h : x.Id = d.Id => hx h.symm
      have e2 : (d.Id == x.Id) = false := by simpa using hx
      rw [Bool.and_comm, e1, e2]
      simp

/-- The database `AddLocation` leaves for a loaded user and a cap `m ≥ 0`: the
new row is appended, the first `len - m` rows loaded before are removed. -/
theorem AddLocation_eq (u : UserIO) (id loc : String) (user : FMDUser)
    (hg : u.UB.GetByID id = some user) (hm : 0 ≤ u.maxSavedLoc)
    (hpos : ∀ l ∈ u.UB.locations, l.Id ≠ 0) :
    u.AddLocation id loc =
      { u := { u with UB := { u.UB with
          locations := (u.UB.locations ++
              [({ Id := u.UB.locationSeq, UserID := user.Id, Position := loc } : Location)]).filter
            (fun x => !(user.Locations.take
              ((user.Locations.length : Int) - u.maxSavedLoc).toNat).any
                (fun d => d.Id == x.Id)),
          locationSeq := u.UB.locationSeq + 1 } },
        ret := .ok () } := by
  obtain ⟨r, -, -, -, huser⟩ := FMDDB.GetByID_some hg
  have hsub : ∀ l ∈ user.Locations, l.Id ≠ 0 := by
    intro l hl
    rw [huser] at hl
    exact hpos l (List.mem_of_mem_filter hl)
  unfold UserIO.AddLocation
  simp only [hg, FMDDB.Create, FMDDB.insertLocation, if_true]
  by_cases hc : (user.Locations.length : Int) > u.maxSavedLoc
  · have h1 : ¬ ((user.Locations.length : Int) - u.maxSavedLoc < 0 ∨
        (user.Locations.length : Int) < (user.Locations.length : Int) - u.maxSavedLoc) := by
      omega
    simp only [hc, if_true, h1, if_false]
    rw [deleteLocations_eq _ _ (fun l hl => hsub l (List.mem_of_mem_take hl))]
  · have h2 : ((user.Locations.length : Int) - u.maxSavedLoc).toNat = 0 := by omega
    simp [hc, h2]

/-- One `AddLocation` on a loaded user, cap `m ≥ 0`: the call returns, the
store stays valid, users and pictures are untouched, the locations of the user
are the ones loaded before without the first `len - m`, followed by the new
row, and the locations of every other key are the same. -/
theorem AddLocation_step (u : UserIO) (id loc : String) (user : FMDUser)
    (hv : u.UB.Valid) (hm : 0 ≤ u.maxSavedLoc) (hg : u.UB.GetByID id = some user) :
    ∃ db : FMDDB, u.AddLocation id loc = { u := { u with UB := db }, ret := .ok () } ∧
      db.Valid ∧ db.users = u.UB.users ∧ db.pictures = u.UB.pictures ∧
      db.locations.filter (fun l => l.UserID == user.Id) =
        user.Locations.drop ((user.Locations.length : Int) - u.maxSavedLoc).toNat ++
          [({ Id := u.UB.locationSeq, UserID := user.Id, Position := loc } : Location)] ∧
      ∀ k, k ≠ user.Id →
        db.locations.filter (fun l => l.UserID == k) =
          u.UB.locations.filter (fun l => l.UserID == k) := by
  have hpos : ∀ l ∈ u.UB.locations, l.Id ≠ 0 :=
    fun l hl => Nat.pos_iff_ne_zero.mp (hv.locationKeys.2.2 l hl).1
  obtain ⟨r, -, -, -, huser⟩ := FMDDB.GetByID_some hg
  have hlocs : user.Locations = u.UB.locations.filter (fun l => l.UserID == user.Id) := by
    rw [huser]
  refine ⟨_, AddLocation_eq u id loc user hg hm hpos, ?_, rfl, rfl, ?_, ?_⟩
  · refine ⟨hv.userKeys, hv.uniqueUIDs, ?_, hv.pictureKeys, hv.minted⟩
    refine ⟨?_, Nat.succ_pos _, ?_⟩
    · refine List.Pairwise.sublist ((List.filter_sublist _).map _) ?_
      rw [List.map_append, List.pairwise_append]
      refine ⟨hv.locationKeys.1, by simp, ?_⟩
      intro a ha b hb
      obtain ⟨x, hx, rfl⟩ := List.mem_map.mp ha
      simp only [List.map_cons, List.map_nil, List.mem_singleton] at hb
      subst hb
      exact (hv.locationKeys.2.2 x hx).2
    · intro l hl
      have hl' := List.mem_of_mem_filter hl
      rcases List.mem_append.mp hl' with h | h
      · exact ⟨(hv.locationKeys.2.2 l h).1, Nat.lt_succ_of_lt (hv.locationKeys.2.2 l h).2⟩
      · rw [List.mem_singleton] at h
        subst h
        exact ⟨hv.locationKeys.2.1, Nat.lt_succ_self _⟩
  · show List.filter _ (List.filter _ _) = _
    rw [hlocs]
    exact keyed_after_same (fun l : Location => l.Id) (fun l : Location => l.UserID) _
      hv.locationKeys.1 (fun x hx => (hv.locationKeys.2.2 x hx).2) rfl
  · intro k hk
    show List.filter _ (List.filter _ _) = _
    rw [hlocs]
    exact keyed_after_other (fun l : Location => l.Id) (fun l : Location => l.UserID) _
      hv.locationKeys.1 rfl hk

/-- One `AddLocation` call, whatever its `id`: the store stays valid, the users
are the same, and no key holds more locations than before or than `m + 1`. -/
theorem AddLocation_count (u : UserIO) (id loc : String) (hv : u.UB.Valid)
    (hm : 0 ≤ u.maxSavedLoc) (k : Nat) :
    (u.AddLocation id loc).u.UB.Valid ∧
      (u.AddLocation id loc).u.UB.users = u.UB.users ∧
      (u.AddLocation id loc).u.maxSavedLoc = u.maxSavedLoc ∧
      (((u.AddLocation id loc).u.UB.locations.filter (fun l => l.UserID == k)).length : Int) ≤
        max ((u.UB.locations.filter (fun l => l.UserID == k)).length : Int)
          (u.maxSavedLoc + 1) := by
  cases hg : u.UB.GetByID id with
  | none =>
    have : u.AddLocation id loc = { u := u, ret := .error .nilPointerDereference } := by
      simp [ UserIO.AddLocation, hg]
    rw [this]
    exact ⟨hv, rfl, rfl, le_max_left _ _⟩
  | some user =>
    obtain ⟨db, heq, hval, husers, -, hsame, hother⟩ := AddLocation_step u id loc user hv hm hg
    obtain ⟨r, -, -, -, huser⟩ := FMDDB.GetByID_some hg
    have hlocs : user.Locations = u.UB.locations.filter (fun l => l.UserID == user.Id) := by
      rw [huser]
    rw [heq]
    refine ⟨hval, husers, rfl, ?_⟩
    by_cases hk : k = user.Id
    · subst hk
      show ((db.locations.filter _).length : Int) ≤ _
      rw [hsame, ← hlocs]
      simp only [List.length_append, List.length_drop, List.length_singleton]
      omega
    · show ((db.locations.filter _).length : Int) ≤ _
      rw [hother k hk]
      exact le_max_left _ _

theorem addLocations_count (calls : List (String × String)) (u : UserIO) (hv : u.UB.Valid)
    (hm : 0 ≤ u.maxSavedLoc) (k : Nat)
    (hk : ((u.UB.locations.filter (fun l => l.UserID == k)).length : Int) ≤ u.maxSavedLoc + 1) :
    (u.addLocations calls).UB.Valid ∧
      (u.addLocations calls).UB.users = u.UB.users ∧
      (((u.addLocations calls).UB.locations.filter (fun l => l.UserID == k)).length : Int) ≤
        u.maxSavedLoc + 1 := by
  induction calls generalizing u with
  | nil => exact ⟨hv, rfl, hk⟩
  | cons c cs ih =>
    obtain ⟨hv', hus, hm', hc⟩ := AddLocation_count u c.1 c.2 hv hm k
    have := ih (u.AddLocation c.1 c.2).u hv' (hm' ▸ hm) (by rw [hm']; exact le_trans hc (max_le hk le_rfl))
    simp only [ UserIO.addLocations, List.foldl_cons] at this ⊢
    rw [hm', hus] at this
    exact this

/-! ## `AddPicture` -/

theorem deletePictures_eq (db : FMDDB) (ls : List Picture) (h0 : ∀ l ∈ ls, l.Id ≠ 0) :
    UserIO.deletePictures db ls =
      { db with pictures :=
          db.pictures.filter (fun x => !ls.any (fun d => d.Id == x.Id)) } := by
  induction ls generalizing db with
  | nil => simp [ UserIO.deletePictures]
  | cons d ds ih =>
    have hd : d.Id ≠ 0 := h0 d (by simp)
    have ih' := ih (db.Delete (.picture d)) (fun l hl => h0 l (by simp [hl]))
    simp only [ UserIO.deletePictures, List.foldl_cons] at ih' ⊢
    rw [ih']
    simp only [FMDDB.Delete, hd, if_false, List.filter_filter, List.any_cons]
    congr 1
    apply List.filter_congr
    intro x _
    by_cases hx : d.Id = x.Id
    · simp [hx]
    · have e1 : (x.Id != d.Id) = true := by simpa using fun h : x.Id = d.Id => hx h.symm
      have e2 : (d.Id == x.Id) = false := by simpa using hx
      rw [Bool.and_comm, e1, e2]
      simp

/-- The database `AddPicture` leaves for a loaded user and a cap `m ≥ 0`: the
new row is appended, the first `len - m` rows loaded before are removed. -/
theorem AddPicture_eq (u : UserIO) (id pic : String) (user : FMDUser)
    (hg : u.UB.GetByID id = some user) (hm : 0 ≤ u.maxSavedPic)
    (hpos : ∀ l ∈ u.UB.pictures, l.Id ≠ 0) :
    u.AddPicture id pic =
      { u := { u with UB := { u.UB with
          pictures := (u.UB.pictures ++
              [({ Id := u.UB.pictureSeq, UserID := user.Id, Content := pic } : Picture)]).filter
            (fun x => !(user.Pictures.take
              ((user.Pictures.length : Int) - u.maxSavedPic).toNat).any
                (fun d => d.Id == x.Id)),
          pictureSeq := u.UB.pictureSeq + 1 } },
        ret := .ok () } := by
  obtain ⟨r, -, -, -, huser⟩ := FMDDB.GetByID_some hg
  have hsub : ∀ l ∈ user.Pictures, l.Id ≠ 0 := by
    intro l hl
    rw [huser] at hl
    exact hpos l (List.mem_of_mem_filter hl)
  unfold UserIO.AddPicture
  simp only [hg, FMDDB.Create, FMDDB.insertPicture, if_true]
  by_cases hc : (user.Pictures.length : Int) > u.maxSavedPic
  · have h1 : ¬ ((user.Pictures.length : Int) - u.maxSavedPic < 0 ∨
        (user.Pictures.length : Int) < (user.Pictures.length : Int) - u.maxSavedPic) := by
      omega
    simp only [hc, if_true, h1, if_false]
    rw [deletePictures_eq _ _ (fun l hl => hsub l (List.mem_of_mem_take hl))]
  · have h2 : ((user.Pictures.length : Int) - u.maxSavedPic).toNat = 0 := by omega
    simp [hc, h2]

/-- One `AddPicture` on a loaded user, cap `m ≥ 0`: the call returns, the
store stays valid, users and locations are untouched, the pictures of the user
are the ones loaded before without the first `len - m`, followed by the new
row, and the pictures of every other key are the same. -/
theorem AddPicture_step (u : UserIO) (id pic : String) (user : FMDUser)
    (hv : u.UB.Valid) (hm : 0 ≤ u.maxSavedPic) (hg : u.UB.GetByID id = some user) :
    ∃ db : FMDDB, u.AddPicture id pic = { u := { u with UB := db }, ret := .ok () } ∧
      db.Valid ∧ db.users = u.UB.users ∧ db.locations = u.UB.locations ∧
      db.pictures.filter (fun l => l.UserID == user.Id) =
        user.Pictures.drop ((user.Pictures.length : Int) - u.maxSavedPic).toNat ++
          [({ Id := u.UB.pictureSeq, UserID := user.Id, Content := pic } : Picture)] ∧
      ∀ k, k ≠ user.Id →
        db.pictures.filter (fun l => l.UserID == k) =
          u.UB.pictures.filter (fun l => l.UserID == k) := by
  have hpos : ∀ l ∈ u.UB.pictures, l.Id ≠ 0 :=
    fun l hl => Nat.pos_iff_ne_zero.mp (hv.pictureKeys.2.2 l hl).1
  obtain ⟨r, -, -, -, huser⟩ := FMDDB.GetByID_some hg
  have hpics : user.Pictures = u.UB.pictures.filter (fun l => l.UserID == user.Id) := by
    rw [huser]
  refine ⟨_, AddPicture_eq u id pic user hg hm hpos, ?_, rfl, rfl, ?_, ?_⟩
  · refine ⟨hv.userKeys, hv.uniqueUIDs, hv.locationKeys, ?_, hv.minted⟩
    refine ⟨?_, Nat.succ_pos _, ?_⟩
    · refine List.Pairwise.sublist ((List.filter_sublist _).map _) ?_
      rw [List.map_append, List.pairwise_append]
      refine ⟨hv.pictureKeys.1, by simp, ?_⟩
      intro a ha b hb
      obtain ⟨x, hx, rfl⟩ := List.mem_map.mp ha
      simp only [List.map_cons, List.map_nil, List.mem_singleton] at hb
      subst hb
      exact (hv.pictureKeys.2.2 x hx).2
    · intro l hl
      have hl' := List.mem_of_mem_filter hl
      rcases List.mem_append.mp hl' with h | h
      · exact ⟨(hv.pictureKeys.2.2 l h).1, Nat.lt_succ_of_lt (hv.pictureKeys.2.2 l h).2⟩
      · rw [List.mem_singleton] at h
        subst h
        exact ⟨hv.pictureKeys.2.1, Nat.lt_succ_self _⟩
  · show List.filter _ (List.filter _ _) = _
    rw [hpics]
    exact keyed_after_same (fun l : Picture => l.Id) (fun l : Picture => l.UserID) _
      hv.pictureKeys.1 (fun x hx => (hv.pictureKeys.2.2 x hx).2) rfl
  · intro k hk
    show List.filter _ (List.filter _ _) = _
    rw [hpics]
    exact keyed_after_other (fun l : Picture => l.Id) (fun l : Picture => l.UserID) _
      hv.pictureKeys.1 rfl hk

/-- One `AddPicture` call, whatever its `id`: the store stays valid, the users
are the same, and no key holds more pictures than before or than `m + 1`. -/
theorem AddPicture_count (u : UserIO) (id pic : String) (hv : u.UB.Valid)
    (hm : 0 ≤ u.maxSavedPic) (k : Nat) :
    (u.AddPicture id pic).u.UB.Valid ∧
      (u.AddPicture id pic).u.UB.users = u.UB.users ∧
      (u.AddPicture id pic).u.maxSavedPic = u.maxSavedPic ∧
      (((u.AddPicture id pic).u.UB.pictures.filter (fun l => l.UserID == k)).length : Int) ≤
        max ((u.UB.pictures.filter (fun l => l.UserID == k)).length : Int)
          (u.maxSavedPic + 1) := by
  cases hg : u.UB.GetByID id with
  | none =>
    have : u.AddPicture id pic = { u := u, ret := .error .nilPointerDereference } := by
      simp [ UserIO.AddPicture, hg]
    rw [this]
    exact ⟨hv, rfl, rfl, le_max_left _ _⟩
  | some user =>
    obtain ⟨db, heq, hval, husers, -, hsame, hother⟩ := AddPicture_step u id pic user hv hm hg
    obtain ⟨r, -, -, -, huser⟩ := FMDDB.GetByID_some hg
    have hpics : user.Pictures = u.UB.pictures.filter (fun l => l.UserID == user.Id) := by
      rw [huser]
    rw [heq]
    refine ⟨hval, husers, rfl, ?_⟩
    by_cases hk : k = user.Id
    · subst hk
      show ((db.pictures.filter _).length : Int) ≤ _
      rw [hsame, ← hpics]
      simp only [List.length_append, List.length_drop, List.length_singleton]
      omega
    · show ((db.pictures.filter _).length : Int) ≤ _
      rw [hother k hk]
      exact le_max_left _ _

theorem addPictures_count (calls : List (String × String)) (u : UserIO) (hv : u.UB.Valid)
    (hm : 0 ≤ u.maxSavedPic) (k : Nat)
    (hk : ((u.UB.pictures.filter (fun l => l.UserID == k)).length : Int) ≤ u.maxSavedPic + 1) :
    (u.addPictures calls).UB.Valid ∧
      (u.addPictures calls).UB.users = u.UB.users ∧
      (((u.addPictures calls).UB.pictures.filter (fun l => l.UserID == k)).length : Int) ≤
        u.maxSavedPic + 1 := by
  induction calls generalizing u with
  | nil => exact ⟨hv, rfl, hk⟩
  | cons c cs ih =>
    obtain ⟨hv', hus, hm', hc⟩ := AddPicture_count u c.1 c.2 hv hm k
    have := ih (u.AddPicture c.1 c.2).u hv' (hm' ▸ hm) (by rw [hm']; exact le_trans hc (max_le hk le_rfl))
    simp only [ UserIO.addPictures, List.foldl_cons] at this ⊢
    rw [hm', hus] at this
    exact this

/-! ## Retention -/

/-- The retention equations of `AddLocation` for an existing account. -/
theorem AddLocation_retention (u : UserIO) (id : String) (r : FMDUser)
    (hv : u.UB.Valid) (hr : r ∈ u.UB.users) (hid : r.UID = id) (hm : 0 ≤ u.maxSavedLoc) :
    ∃ user, u.UB.GetByID id = some user ∧
      (∀ loc,
        (u.AddLocation id loc).ret = .ok () ∧
        (u.AddLocation id loc).u.UB.GetByID id = some { user with
          Locations :=
            user.Locations.drop ((user.Locations.length : Int) - u.maxSavedLoc).toNat ++
              [({ Id := u.UB.locationSeq, UserID := user.Id, Position := loc } : Location)] } ∧
        ((user.Locations.length : Int) ≤ u.maxSavedLoc →
          (u.AddLocation id loc).u.GetLocationSize id = .ok ((user.Locations.length : Int) + 1)) ∧
        (u.maxSavedLoc < (user.Locations.length : Int) →
          (u.AddLocation id loc).u.GetLocationSize id = .ok (u.maxSavedLoc + 1))) ∧
      ((user.Locations.length : Int) ≤ u.maxSavedLoc + 1 →
        ∀ calls : List (String × String), ∃ n : Int,
          (u.addLocations calls).GetLocationSize id = .ok n ∧ n ≤ u.maxSavedLoc + 1) := by
  subst hid
  have hne := hv.minted r hr
  have hg := FMDDB.GetByID_of_mem hv.userKeys hv.uniqueUIDs hr hne
  refine ⟨_, hg, ?_, ?_⟩
  · intro loc
    obtain ⟨db, heq, hval, husers, hpics, hsame, -⟩ := AddLocation_step u r.UID loc _ hv hm hg
    have hr' : r ∈ db.users := husers ▸ hr
    have hg' := FMDDB.GetByID_of_mem hval.userKeys hval.uniqueUIDs hr' hne
    have hsame' : db.locations.filter (fun l => l.UserID == r.Id) = _ := hsame
    rw [hsame', hpics] at hg'
    rw [heq]
    refine ⟨rfl, hg', ?_, ?_⟩
    · intro hc
      simp only [ UserIO.GetLocationSize, hg']
      simp only [List.length_append, List.length_drop, List.length_singleton]
      congr 1
      dsimp only at hc ⊢
      omega
    · intro hc
      simp only [ UserIO.GetLocationSize, hg']
      simp only [List.length_append, List.length_drop, List.length_singleton]
      congr 1
      dsimp only at hc ⊢
      omega
  · intro hc calls
    obtain ⟨hval, husers, hcount⟩ := addLocations_count calls u hv hm r.Id hc
    have hr' : r ∈ (u.addLocations calls).UB.users := husers ▸ hr
    have hg' := FMDDB.GetByID_of_mem hval.userKeys hval.uniqueUIDs hr' hne
    exact ⟨_, by simp only [ UserIO.GetLocationSize, hg'], hcount⟩

/-- The retention equations of `AddPicture` for an existing account. -/
theorem AddPicture_retention (u : UserIO) (id : String) (r : FMDUser)
    (hv : u.UB.Valid) (hr : r ∈ u.UB.users) (hid : r.UID = id) (hm : 0 ≤ u.maxSavedPic) :
    ∃ user, u.UB.GetByID id = some user ∧
      (∀ pic,
        (u.AddPicture id pic).ret = .ok () ∧
        (u.AddPicture id pic).u.UB.GetByID id = some { user with
          Pictures :=
            user.Pictures.drop ((user.Pictures.length : Int) - u.maxSavedPic).toNat ++
              [({ Id := u.UB.pictureSeq, UserID := user.Id, Content := pic } : Picture)] } ∧
        ((user.Pictures.length : Int) ≤ u.maxSavedPic →
          (u.AddPicture id pic).u.GetPictureSize id = .ok ((user.Pictures.length : Int) + 1)) ∧
        (u.maxSavedPic < (user.Pictures.length : Int) →
          (u.AddPicture id pic).u.GetPictureSize id = .ok (u.maxSavedPic + 1))) ∧
      ((user.Pictures.length : Int) ≤ u.maxSavedPic + 1 →
        ∀ calls : List (String × String), ∃ n : Int,
          (u.addPictures calls).GetPictureSize id = .ok n ∧ n ≤ u.maxSavedPic + 1) := by
  subst hid
  have hne := hv.minted r hr
  have hg := FMDDB.GetByID_of_mem hv.userKeys hv.uniqueUIDs hr hne
  refine ⟨_, hg, ?_, ?_⟩
  · intro pic
    obtain ⟨db, heq, hval, husers, hlocs, hsame, -⟩ := AddPicture_step u r.UID pic _ hv hm hg
    have hr' : r ∈ db.users := husers ▸ hr
    have hg' := FMDDB.GetByID_of_mem hval.userKeys hval.uniqueUIDs hr' hne
    have hsame' : db.pictures.filter (fun l => l.UserID == r.Id) = _ := hsame
    rw [hsame', hlocs] at hg'
    rw [heq]
    refine ⟨rfl, hg', ?_, ?_⟩
    · intro hc
      simp only [ UserIO.GetPictureSize, hg']
      simp only [List.length_append, List.length_drop, List.length_singleton]
      congr 1
      dsimp only at hc ⊢
      omega
    · intro hc
      simp only [ UserIO.GetPictureSize, hg']
      simp only [List.length_append, List.length_drop, List.length_singleton]
      congr 1
      dsimp only at hc ⊢
      omega
  · intro hc calls
    obtain ⟨hval, husers, hcount⟩ := addPictures_count calls u hv hm r.Id hc
    have hr' : r ∈ (u.addPictures calls).UB.users := husers ▸ hr
    have hg' := FMDDB.GetByID_of_mem hval.userKeys hval.uniqueUIDs hr' hne
    exact ⟨_, by simp only [ UserIO.GetPictureSize, hg'], hcount⟩

/-- C10: for caps `m ≥ 0` and an existing account holding `c` locations,
`AddLocation` decides eviction from the collection as loaded before the insert:
the call returns and the account then holds the rows loaded before without the
oldest `max(0, c - m)`, followed by the new row, hence `c + 1` rows when
`c ≤ m` and `m + 1` rows when `c > m`; a collection of at most `m + 1` rows
stays within `m + 1` rows under every sequence of `AddLocation` calls.
`AddPicture` obeys the same equations with `maxSavedPic` and the pictures. -/
theorem AddLocation_AddPicture_retention (u : UserIO) (id : String) (r : FMDUser)
    (hv : u.UB.Valid) (hr : r ∈ u.UB.users) (hid : r.UID = id)
    (hml : 0 ≤ u.maxSavedLoc) (hmp : 0 ≤ u.maxSavedPic) :
    (∃ user, u.UB.GetByID id = some user ∧
      (∀ loc,
        (u.AddLocation id loc).ret = .ok () ∧
        (u.AddLocation id loc).u.UB.GetByID id = some { user with
          Locations :=
            user.Locations.drop ((user.Locations.length : Int) - u.maxSavedLoc).toNat ++
              [({ Id := u.UB.locationSeq, UserID := user.Id, Position := loc } : Location)] } ∧
        ((user.Locations.length : Int) ≤ u.maxSavedLoc →
          (u.AddLocation id loc).u.GetLocationSize id = .ok ((user.Locations.length : Int) + 1)) ∧
        (u.maxSavedLoc < (user.Locations.length : Int) →
          (u.AddLocation id loc).u.GetLocationSize id = .ok (u.maxSavedLoc + 1))) ∧
      ((user.Locations.length : Int) ≤ u.maxSavedLoc + 1 →
        ∀ calls : List (String × String), ∃ n : Int,
          (u.addLocations calls).GetLocationSize id = .ok n ∧ n ≤ u.maxSavedLoc + 1)) ∧
    (∃ user, u.UB.GetByID id = some user ∧
      (∀ pic,
        (u.AddPicture id pic).ret = .ok () ∧
        (u.AddPicture id pic).u.UB.GetByID id = some { user with
          Pictures :=
            user.Pictures.drop ((user.Pictures.length : Int) - u.maxSavedPic).toNat ++
              [({ Id := u.UB.pictureSeq, UserID := user.Id, Content := pic } : Picture)] } ∧
        ((user.Pictures.length : Int) ≤ u.maxSavedPic →
          (u.AddPicture id pic).u.GetPictureSize id = .ok ((user.Pictures.length : Int) + 1)) ∧
        (u.maxSavedPic < (user.Pictures.length : Int) →
          (u.AddPicture id pic).u.GetPictureSize id = .ok (u.maxSavedPic + 1))) ∧
      ((user.Pictures.length : Int) ≤ u.maxSavedPic + 1 →
        ∀ calls : List (String × String), ∃ n : Int,
          (u.addPictures calls).GetPictureSize id = .ok n ∧ n ≤ u.maxSavedPic + 1)) :=
  ⟨AddLocation_retention u id r hv hr hid hml, AddPicture_retention u id r hv hr hid hmp⟩

/-! ## Uniqueness of account identifiers -/

theorem FMDDB.UserKeys_of_map {db db' : FMDDB} (h : db.UserKeys)
    (hm : db'.users.map (fun r => r.Id) = db.users.map (fun r => r.Id))
    (hs : db'.userSeq = db.userSeq) : db'.UserKeys := by
  refine ⟨hm ▸ h.1, hs ▸ h.2.1, ?_⟩
  intro r hr
  have : r.Id ∈ db.users.map (fun r => r.Id) := hm ▸ List.mem_map_of_mem (fun r => r.Id) hr
  obtain ⟨x, hx, hxr⟩ := List.mem_map.mp this
  have := h.2.2 x hx
  rw [hs]
  simpa [← hxr] using this

theorem FMDDB.Save_user {db : FMDDB} (hk : db.UserKeys) {value r : FMDUser}
    (hr : r ∈ db.users) (hId : value.Id = r.Id) (hUID : value.UID = r.UID) :
    (db.Save (.user (some value))).users.map (fun r => r.Id) = db.users.map (fun r => r.Id) ∧
      (db.Save (.user (some value))).users.map (fun r => r.UID) =
        db.users.map (fun r => r.UID) ∧
      (db.Save (.user (some value))).userSeq = db.userSeq := by
  have h0 : value.Id ≠ 0 := by
    rw [hId]
    exact Nat.pos_iff_ne_zero.mp (hk.2.2 r hr).1
  have hany : db.users.any (fun x => x.Id == value.Id) = true := by
    rw [List.any_eq_true]
    exact ⟨r, hr, by simp [hId]⟩
  unfold FMDDB.Save
  simp only [h0, if_false, hany, if_true]
  split
  · exact ⟨rfl, rfl, rfl⟩
  · refine ⟨?_, ?_, rfl⟩
    · simp only [List.map_map]
      apply List.map_congr_left
      intro x _
      by_cases hx : x.Id = value.Id
      · simp [hx, FMDUser.row]
      · simp [hx]
    · simp only [List.map_map]
      apply List.map_congr_left
      intro x hxm
      by_cases hx : x.Id = value.Id
      · have : x = r := key_injOn (fun x : FMDUser => x.Id) hk.1 hxm hr (hx.trans hId)
        subst this
        simp [hx, FMDUser.row, hUID]
      · simp [hx]

theorem FMDDB.insertUser_zero {db : FMDDB} (hk : db.UserKeys) (hu : db.UniqueUIDs)
    (value : FMDUser) (h0 : value.Id = 0) :
    (db.insertUser value).UserKeys ∧ (db.insertUser value).UniqueUIDs ∧
      (∀ r ∈ db.users, r ∈ (db.insertUser value).users) ∧
      ((∀ r ∈ db.users, r.UID ≠ value.UID) →
        (db.insertUser value).users = db.users ++ [{ value.row with Id := db.userSeq }]) := by
  unfold FMDDB.insertUser
  by_cases hany : db.users.any (fun r => r.UID == value.UID) = true
  · simp only [hany, if_true]
    refine ⟨hk, hu, fun r hr => hr, ?_⟩
    intro hfresh
    rw [List.any_eq_true] at hany
    obtain ⟨x, hx, hxu⟩ := hany
    exact absurd (by simpa using hxu) (hfresh x hx)
  · rw [Bool.not_eq_true] at hany
    simp only [hany, Bool.false_eq_true, if_false, h0, if_true]
    rw [List.any_eq_false] at hany
    refine ⟨⟨?_, Nat.succ_pos _, ?_⟩, ?_, fun r hr => List.mem_append_left _ hr, fun _ => trivial⟩
    · rw [List.map_append, List.pairwise_append]
      refine ⟨hk.1, by simp, ?_⟩
      intro a ha b hb
      obtain ⟨x, hx, rfl⟩ := List.mem_map.mp ha
      simp only [List.map_cons, List.map_nil, List.mem_singleton] at hb
      subst hb
      exact (hk.2.2 x hx).2
    · intro r hr
      rcases List.mem_append.mp hr with h | h
      · exact ⟨(hk.2.2 r h).1, Nat.lt_succ_of_lt (hk.2.2 r h).2⟩
      · rw [List.mem_singleton] at h
        subst h
        exact ⟨hk.2.1, Nat.lt_succ_self _⟩
    · show (List.map _ (_ ++ _)).Nodup
      rw [List.map_append, List.nodup_append]
      refine ⟨hu, by simp, ?_⟩
      intro a ha hb
      obtain ⟨x, hx, rfl⟩ := List.mem_map.mp ha
      simp only [List.map_cons, List.map_nil, List.mem_singleton, FMDUser.row] at hb
      exact hany x hx (by simpa using hb)

theorem FMDDB.Save_loaded {db : FMDDB} (hk : db.UserKeys) {id : String}
    {user value : FMDUser} (hg : db.GetByID id = some user)
    (hId : value.Id = user.Id) (hUID : value.UID = user.UID) :
    (db.Save (.user (some value))).users.map (fun r => r.Id) = db.users.map (fun r => r.Id) ∧
      (db.Save (.user (some value))).users.map (fun r => r.UID) =
        db.users.map (fun r => r.UID) ∧
      (db.Save (.user (some value))).userSeq = db.userSeq := by
  obtain ⟨r, hr, -, -, huser⟩ := FMDDB.GetByID_some hg
  exact FMDDB.Save_user hk hr (by rw [hId, huser]) (by rw [hUID, huser])

theorem deleteLocations_users (db : FMDDB) (ls : List Location) :
    ( UserIO.deleteLocations db ls).users = db.users ∧
      ( UserIO.deleteLocations db ls).userSeq = db.userSeq := by
  induction ls generalizing db with
  | nil => exact ⟨rfl, rfl⟩
  | cons d ds ih =>
    have h := ih (db.Delete (.location d))
    simp only [ UserIO.deleteLocations, List.foldl_cons] at h ⊢
    rw [h.1, h.2]
    simp only [FMDDB.Delete]
    split <;> exact ⟨rfl, rfl⟩

theorem deletePictures_users (db : FMDDB) (ps : List Picture) :
    ( UserIO.deletePictures db ps).users = db.users ∧
      ( UserIO.deletePictures db ps).userSeq = db.userSeq := by
  induction ps generalizing db with
  | nil => exact ⟨rfl, rfl⟩
  | cons d ds ih =>
    have h := ih (db.Delete (.picture d))
    simp only [ UserIO.deletePictures, List.foldl_cons] at h ⊢
    rw [h.1, h.2]
    simp only [FMDDB.Delete]
    split <;> exact ⟨rfl, rfl⟩

theorem AddLocation_users (u : UserIO) (id loc : String) :
    (u.AddLocation id loc).u.UB.users = u.UB.users ∧
      (u.AddLocation id loc).u.UB.userSeq = u.UB.userSeq := by
  unfold UserIO.AddLocation
  cases u.UB.GetByID id with
  | none => exact ⟨rfl, rfl⟩
  | some user =>
    simp only [FMDDB.Create, FMDDB.insertLocation, if_true]
    split
    · split
      · exact ⟨rfl, rfl⟩
      · exact deleteLocations_users _ _
    · exact ⟨rfl, rfl⟩

theorem AddPicture_users (u : UserIO) (id pic : String) :
    (u.AddPicture id pic).u.UB.users = u.UB.users ∧
      (u.AddPicture id pic).u.UB.userSeq = u.UB.userSeq := by
  unfold UserIO.AddPicture
  cases u.UB.GetByID id with
  | none => exact ⟨rfl, rfl⟩
  | some user =>
    simp only [FMDDB.Create, FMDDB.insertPicture, if_true]
    split
    · split
      · exact ⟨rfl, rfl⟩
      · exact deletePictures_users _ _
    · exact ⟨rfl, rfl⟩

theorem generateNewIdLoop_fresh (u : UserIO) (fuel : Nat) (newId : String) (rnd : RandSource)
    (id : String) (rnd' : RandSource)
    (h : u.generateNewIdLoop fuel newId rnd = some (.ok (id, rnd'))) :
    u.UB.GetByID id = none := by
  induction fuel generalizing newId rnd with
  | zero =>
    unfold UserIO.generateNewIdLoop at h
    split at h
    · exact absurd h (by simp)
    · rename_i hn
      simp only [Option.some.injEq, Except.ok.injEq, Prod.mk.injEq] at h
      rw [← h.1]
      simpa using hn
  | succ n ih =>
    unfold UserIO.generateNewIdLoop at h
    split at h
    · split at h
      · exact absurd h (by simp)
      · exact ih _ _ h
    · rename_i hn
      simp only [Option.some.injEq, Except.ok.injEq, Prod.mk.injEq] at h
      rw [← h.1]
      simpa using hn

theorem generateNewId_fresh (u : UserIO) (fuel : Nat) (rnd : RandSource)
    (id : String) (rnd' : RandSource)
    (h : u.generateNewId fuel rnd = some (.ok (id, rnd'))) :
    u.UB.GetByID id = none := by
  unfold UserIO.generateNewId at h
  split at h
  · exact absurd h (by simp)
  · exact generateNewIdLoop_fresh u fuel _ _ id rnd' h

/-- An update that keeps the keys and the UIDs of the users table keeps its
constraints and its accounts. -/
theorem FMDDB.same_users {db : FMDDB} (db' : FMDDB) (hk : db.UserKeys)
    (hu : db.UniqueUIDs)
    (h : db'.users.map (fun r => r.Id) = db.users.map (fun r => r.Id) ∧
      db'.users.map (fun r => r.UID) = db.users.map (fun r => r.UID) ∧
      db'.userSeq = db.userSeq) :
    db'.UserKeys ∧ db'.UniqueUIDs ∧
      ∀ x ∈ db.users.map (fun r => r.UID), x ∈ db'.users.map (fun r => r.UID) :=
  ⟨FMDDB.UserKeys_of_map hk h.1 h.2.2, by unfold FMDDB.UniqueUIDs; rw [h.2.1]; exact hu,
    fun x hx => by rw [h.2.1]; exact hx⟩

theorem CreateNewUser_fresh (u : UserIO) (fuel : Nat) (rnd : RandSource)
    (privKey pubKey salt hashedPassword : String) (r : Result String) (rnd' : RandSource)
    (hk : u.UB.UserKeys) (hu : u.UB.UniqueUIDs)
    (h : u.CreateNewUser fuel rnd privKey pubKey salt hashedPassword = some (r, rnd')) :
    r.u.UB.UserKeys ∧ r.u.UB.UniqueUIDs ∧
      (∀ x ∈ u.UB.users, x ∈ r.u.UB.users) ∧
      ∀ id, r.ret = .ok id →
        (∀ x ∈ u.UB.users, x.UID ≠ id) ∧ ∃ x ∈ r.u.UB.users, x.UID = id := by
  unfold UserIO.CreateNewUser at h
  split at h
  · exact absurd h (by simp)
  · simp only [Option.some.injEq, Prod.mk.injEq] at h
    rw [← h.1]
    exact ⟨hk, hu, fun x hx => hx, fun id hid => absurd hid (by simp)⟩
  · rename_i id rnd1 hgen
    simp only [Option.some.injEq, Prod.mk.injEq] at h
    rw [← h.1]
    have hfresh := FMDDB.GetByID_none hk (generateNewId_fresh u fuel rnd id rnd1 hgen)
    obtain ⟨h1, h2, h3, h4⟩ := FMDDB.insertUser_zero hk hu
      { Id := 0, UID := id, Salt := salt, HashedPassword := hashedPassword,
        PrivateKey := privKey, PublicKey := pubKey, CommandToUser := "", PushUrl := "",
        Locations := [], Pictures := [] } rfl
    refine ⟨h1, h2, h3, ?_⟩
    intro id' hid'
    simp only [Except.ok.injEq] at hid'
    subst hid'
    refine ⟨hfresh, ?_⟩
    have h5 := h4 hfresh
    simp only [FMDDB.Create]
    exact ⟨_, by rw [h5]; exact List.mem_append_right _ (List.mem_singleton_self _), rfl⟩

theorem exec_users (fuel : Nat) (op : Op) (w w' : World) (ret : Option String)
    (hk : w.u.UB.UserKeys) (hu : w.u.UB.UniqueUIDs)
    (h : op.exec fuel w = some (w', ret)) :
    w'.u.UB.UserKeys ∧ w'.u.UB.UniqueUIDs ∧
      (∀ id, ret = some id →
        (∀ x ∈ w.u.UB.users, x.UID ≠ id) ∧ ∃ x ∈ w'.u.UB.users, x.UID = id) ∧
      (∀ id1, op.removes id1 = false →
        id1 ∈ w.u.UB.users.map (fun r => r.UID) →
        id1 ∈ w'.u.UB.users.map (fun r => r.UID)) := by
  have setter : ∀ (f : FMDUser → FMDUser), (∀ x, (f x).Id = x.Id) → (∀ x, (f x).UID = x.UID) →
      ∀ (res : Result Unit) (id : String),
      res = (match w.u.UB.GetByID id with
        | none => { u := w.u, ret := .error .nilPointerDereference }
        | some user =>
          { u := { w.u with UB := w.u.UB.Save (.user (some (f user))) }, ret := .ok () }) →
      res.u.UB.UserKeys ∧ res.u.UB.UniqueUIDs ∧
        ∀ x ∈ w.u.UB.users.map (fun r => r.UID), x ∈ res.u.UB.users.map (fun r => r.UID) := by
    intro f hf1 hf2 res id hres
    cases hg : w.u.UB.GetByID id with
    | none =>
      rw [hg] at hres
      rw [hres]
      exact ⟨hk, hu, fun x hx => hx⟩
    | some user =>
      rw [hg] at hres
      rw [hres]
      exact FMDDB.same_users _ hk hu (FMDDB.Save_loaded hk hg (hf1 user) (hf2 user))
  cases op with
  | CreateNewUser privKey pubKey salt hashedPassword =>
    simp only [Op.exec] at h
    split at h
    · exact absurd h (by simp)
    · rename_i r rnd' hc
      simp only [Option.some.injEq, Prod.mk.injEq] at h
      obtain ⟨h1, h2, h3, h4⟩ := CreateNewUser_fresh w.u fuel w.rnd _ _ _ _ r rnd' hk hu hc
      rw [← h.1, ← h.2]
      refine ⟨h1, h2, ?_, ?_⟩
      · intro id hid
        cases hr : r.ret with
        | error p => simp [hr] at hid
        | ok id' =>
          simp only [hr, Option.some.injEq] at hid
          exact h4 id (hid ▸ hr)
      · intro x _ hx
        obtain ⟨y, hy, rfl⟩ := List.mem_map.mp hx
        exact List.mem_map_of_mem _ (h3 y hy)
  | UpdateUserPassword id privKey salt hashedPassword =>
    simp only [Op.exec, Option.some.injEq, Prod.mk.injEq] at h
    obtain ⟨h1, h2, h3⟩ := setter
      (fun user => { user with HashedPassword := hashedPassword, Salt := salt, PrivateKey := privKey })
      (fun _ => rfl) (fun _ => rfl) (w.u.UpdateUserPassword id privKey salt hashedPassword) id rfl
    rw [← h.1, ← h.2]
    exact ⟨h1, h2, fun _ hid => absurd hid (by simp), fun id1 _ => h3 id1⟩
  | SetPrivateKey id key =>
    simp only [Op.exec, Option.some.injEq, Prod.mk.injEq] at h
    obtain ⟨h1, h2, h3⟩ := setter (fun user => { user with PrivateKey := key })
      (fun _ => rfl) (fun _ => rfl) (w.u.SetPrivateKey id key) id rfl
    rw [← h.1, ← h.2]
    exact ⟨h1, h2, fun _ hid => absurd hid (by simp), fun id1 _ => h3 id1⟩
  | SetPublicKey id key =>
    simp only [Op.exec, Option.some.injEq, Prod.mk.injEq] at h
    obtain ⟨h1, h2, h3⟩ := setter (fun user => { user with PublicKey := key })
      (fun _ => rfl) (fun _ => rfl) (w.u.SetPublicKey id key) id rfl
    rw [← h.1, ← h.2]
    exact ⟨h1, h2, fun _ hid => absurd hid (by simp), fun id1 _ => h3 id1⟩
  | SetCommandToUser id ctu =>
    simp only [Op.exec, Option.some.injEq, Prod.mk.injEq] at h
    obtain ⟨h1, h2, h3⟩ := setter (fun user => { user with CommandToUser := ctu })
      (fun _ => rfl) (fun _ => rfl) (w.u.SetCommandToUser id ctu) id rfl
    rw [← h.1, ← h.2]
    exact ⟨h1, h2, fun _ hid => absurd hid (by simp), fun id1 _ => h3 id1⟩
  | SetPushUrl id pushUrl =>
    simp only [Op.exec, Option.some.injEq, Prod.mk.injEq] at h
    obtain ⟨h1, h2, h3⟩ := setter (fun user => { user with PushUrl := pushUrl })
      (fun _ => rfl) (fun _ => rfl) (w.u.SetPushUrl id pushUrl) id rfl
    rw [← h.1, ← h.2]
    exact ⟨h1, h2, fun _ hid => absurd hid (by simp), fun id1 _ => h3 id1⟩
  | AddLocation id loc =>
    simp only [Op.exec, Option.some.injEq, Prod.mk.injEq] at h
    obtain ⟨e1, e2⟩ := AddLocation_users w.u id loc
    obtain ⟨h1, h2, h3⟩ := FMDDB.same_users (w.u.AddLocation id loc).u.UB hk hu
      ⟨by rw [e1], by rw [e1], e2⟩
    rw [← h.1, ← h.2]
    exact ⟨h1, h2, fun _ hid => absurd hid (by simp), fun id1 _ => h3 id1⟩
  | AddPicture id pic =>
    simp only [Op.exec, Option.some.injEq, Prod.mk.injEq] at h
    obtain ⟨e1, e2⟩ := AddPicture_users w.u id pic
    obtain ⟨h1, h2, h3⟩ := FMDDB.same_users (w.u.AddPicture id pic).u.UB hk hu
      ⟨by rw [e1], by rw [e1], e2⟩
    rw [← h.1, ← h.2]
    exact ⟨h1, h2, fun _ hid => absurd hid (by simp), fun id1 _ => h3 id1⟩
  | DeleteUser id =>
    simp only [Op.exec, Option.some.injEq, Prod.mk.injEq] at h
    rw [← h.1, ← h.2]
    refine ⟨FMDDB.Delete_userKeys hk _, FMDDB.Delete_uniqueUIDs hu _,
      fun _ hid => absurd hid (by simp), ?_⟩
    intro id1 hd hm
    simp only [Op.removes, Bool.or_eq_false_iff, beq_eq_false_iff_ne, ne_eq] at hd
    exact DeleteUser_keeps w.u id id1 hk hd.1 hd.2 hm

theorem runOps_users (fuel : Nat) (ops : List Op) (w w' : World) (ids : List String)
    (hk : w.u.UB.UserKeys) (hu : w.u.UB.UniqueUIDs)
    (h : runOps fuel ops w = some (w', ids)) :
    w'.u.UB.UserKeys ∧ w'.u.UB.UniqueUIDs ∧
      (∀ id1, (∀ op ∈ ops, op.removes id1 = false) →
        id1 ∈ w.u.UB.users.map (fun r => r.UID) →
        id1 ∈ w'.u.UB.users.map (fun r => r.UID)) := by
  induction ops generalizing w ids with
  | nil =>
    simp only [runOps, Option.some.injEq, Prod.mk.injEq] at h
    rw [← h.1]
    exact ⟨hk, hu, fun _ _ hx => hx⟩
  | cons op ops ih =>
    unfold runOps at h
    split at h
    · exact absurd h (by simp)
    · rename_i w1 ret hop
      split at h
      · exact absurd h (by simp)
      · rename_i w2 ids2 hrest
        simp only [Option.some.injEq, Prod.mk.injEq] at h
        obtain ⟨hw, -⟩ := h
        subst hw
        obtain ⟨h1, h2, -, h4⟩ := exec_users fuel op w w1 ret hk hu hop
        obtain ⟨h5, h6, h7⟩ := ih w1 ids2 h1 h2 hrest
        refine ⟨h5, h6, ?_⟩
        intro x hnd hx
        exact h7 x (fun o ho => hnd o (List.mem_cons_of_mem _ ho))
          (h4 x (hnd op (List.mem_cons_self _ _)) hx)

/-- C4: uniqueness of account identifiers is an invariant of the store.  From
a state where the primary key of the users table holds and no two accounts
share a UID, every account manager operation (`CreateNewUser`,
`UpdateUserPassword`, the four setters, `AddLocation`, `AddPicture`,
`DeleteUser`) leaves a state with the same two properties, whether it returns
or panics; and whenever `CreateNewUser` returns an identifier, no account of
the store it was called on carries it, and the account created carries it. -/
theorem unique_UIDs_invariant (fuel : Nat) (w : World)
    (hk : w.u.UB.UserKeys) (hu : w.u.UB.UniqueUIDs) :
    (∀ (op : Op) (w' : World) (ret : Option String), op.exec fuel w = some (w', ret) →
      w'.u.UB.UserKeys ∧ w'.u.UB.UniqueUIDs) ∧
    (∀ (privKey pubKey salt hashedPassword : String) (r : Result String)
        (rnd' : RandSource) (id : String),
      w.u.CreateNewUser fuel w.rnd privKey pubKey salt hashedPassword = some (r, rnd') →
      r.ret = .ok id →
      (∀ x ∈ w.u.UB.users, x.UID ≠ id) ∧ ∃ x ∈ r.u.UB.users, x.UID = id) := by
  constructor
  · intro op w' ret h
    obtain ⟨h1, h2, -, -⟩ := exec_users fuel op w w' ret hk hu h
    exact ⟨h1, h2⟩
  · intro privKey pubKey salt hashedPassword r rnd' id h hid
    exact (CreateNewUser_fresh w.u fuel w.rnd _ _ _ _ r rnd' hk hu h).2.2.2 id hid

/-- C5, amended: on one store instance, whatever operations came before, a
`CreateNewUser` call returns an identifier that differs from the identifier
`id1` returned by an earlier `CreateNewUser` call, provided the account of
`id1` was not deleted in between: no `DeleteUser(id1)` and no `DeleteUser("")`
(whose lookup loads the first account) among the calls between the two.
Deletions of other accounts may occur. -/
theorem CreateNewUser_distinct_until_deleted (fuel : Nat) (w0 w w1 w2 w3 : World)
    (pre mid : List Op) (ids0 ids1 : List String)
    (privKey1 pubKey1 salt1 hashedPassword1 privKey2 pubKey2 salt2 hashedPassword2 : String)
    (id1 id2 : String)
    (hk : w0.u.UB.UserKeys) (hu : w0.u.UB.UniqueUIDs)
    (hpre : runOps fuel pre w0 = some (w, ids0))
    (h1 : (Op.CreateNewUser privKey1 pubKey1 salt1 hashedPassword1).exec fuel w =
      some (w1, some id1))
    (hmid : runOps fuel mid w1 = some (w2, ids1))
    (hnd : ∀ op ∈ mid, op ≠ Op.DeleteUser id1 ∧ op ≠ Op.DeleteUser "")
    (h2 : (Op.CreateNewUser privKey2 pubKey2 salt2 hashedPassword2).exec fuel w2 =
      some (w3, some id2)) :
    id2 ≠ id1 := by
  have hnd' : ∀ op ∈ mid, op.removes id1 = false := by
    intro op hop
    cases op with
    | DeleteUser id' =>
      have h := hnd _ hop
      have h3 : id' ≠ id1 := fun e => h.1 (by rw [e])
      have h4 : id' ≠ "" := fun e => h.2 (by rw [e])
      simp [Op.removes, h3, h4]
    | _ => rfl
  obtain ⟨hk1, hu1, -⟩ := runOps_users fuel pre w0 w ids0 hk hu hpre
  obtain ⟨hk2, hu2, hc1, -⟩ := exec_users fuel _ w w1 _ hk1 hu1 h1
  obtain ⟨hk3, hu3, hkeep⟩ := runOps_users fuel mid w1 w2 ids1 hk2 hu2 hmid
  obtain ⟨-, -, hc2, -⟩ := exec_users fuel _ w2 w3 _ hk3 hu3 h2
  obtain ⟨x, hx, hxid⟩ := (hc1 id1 rfl).2
  have hmem : id1 ∈ w2.u.UB.users.map (fun r => r.UID) :=
    hkeep id1 hnd' (hxid ▸ List.mem_map_of_mem (fun r : FMDUser => r.UID) hx)
  obtain ⟨y, hy, hyid⟩ := List.mem_map.mp hmem
  intro heq
  exact (hc2 id2 rfl).1 y hy (hyid.trans heq.symm)

/-! ## Validity of the store is kept by every operation -/

theorem FMDDB.empty_valid : FMDDB.empty.Valid := by
  refine ⟨?_, ?_, ?_, ?_, ?_⟩ <;>
    simp [FMDDB.empty, FMDDB.UserKeys, FMDDB.UniqueUIDs, FMDDB.LocationKeys, FMDDB.PictureKeys]

theorem genRunes_length (n : Nat) (rnd : RandSource) (s : List Char) (rnd' : RandSource)
    (h : genRunes n rnd = .ok (s, rnd')) : s.length = n := by
  induction n generalizing rnd s with
  | zero =>
    simp only [genRunes, Except.ok.injEq, Prod.mk.injEq] at h
    rw [← h.1]
    rfl
  | succ n ih =>
    cases rnd with
    | nil => simp [genRunes] at h
    | cons d rest =>
      simp only [genRunes] at h
      split at h
      · exact absurd h (by simp)
      · split at h
        · exact absurd h (by simp)
        · rename_i s1 r1 hrec
          simp only [Except.ok.injEq, Prod.mk.injEq] at h
          obtain ⟨hs, hr⟩ := h
          subst hr
          rw [← hs, List.length_cons, ih _ _ hrec]

theorem genRandomString_nonempty (length : Int) (hlen : 1 ≤ length) (rnd : RandSource)
    (id : String) (rnd' : RandSource) (h : genRandomString length rnd = .ok (id, rnd')) :
    id ≠ "" := by
  unfold genRandomString at h
  have hneg : ¬ length < 0 := by omega
  simp only [hneg, if_false] at h
  split at h
  · exact absurd h (by simp)
  · rename_i s r hs
    simp only [Except.ok.injEq, Prod.mk.injEq] at h
    have hl := genRunes_length _ _ _ _ hs
    intro hid
    rw [← h.1] at hid
    have : s = [] := by
      have := congrArg String.data hid
      simpa using this
    rw [this] at hl
    simp at hl
    omega

theorem generateNewIdLoop_nonempty (u : UserIO) (hlen : 1 ≤ u.userIDLength) (fuel : Nat)
    (newId : String) (hne : newId ≠ "") (rnd : RandSource) (id : String) (rnd' : RandSource)
    (h : u.generateNewIdLoop fuel newId rnd = some (.ok (id, rnd'))) : id ≠ "" := by
  induction fuel generalizing newId rnd with
  | zero =>
    unfold UserIO.generateNewIdLoop at h
    split at h
    · exact absurd h (by simp)
    · simp only [Option.some.injEq, Except.ok.injEq, Prod.mk.injEq] at h
      exact h.1 ▸ hne
  | succ n ih =>
    unfold UserIO.generateNewIdLoop at h
    split at h
    · split at h
      · exact absurd h (by simp)
      · rename_i s r hs
        exact ih _ (genRandomString_nonempty _ hlen _ _ _ hs) _ h
    · simp only [Option.some.injEq, Except.ok.injEq, Prod.mk.injEq] at h
      exact h.1 ▸ hne

theorem generateNewId_nonempty (u : UserIO) (hlen : 1 ≤ u.userIDLength) (fuel : Nat)
    (rnd : RandSource) (id : String) (rnd' : RandSource)
    (h : u.generateNewId fuel rnd = some (.ok (id, rnd'))) : id ≠ "" := by
  unfold UserIO.generateNewId at h
  split at h
  · exact absurd h (by simp)
  · rename_i s r hs
    exact generateNewIdLoop_nonempty u hlen fuel _ (genRandomString_nonempty _ hlen _ _ _ hs)
      _ _ _ h

theorem FMDDB.minted_of_map {db db' : FMDDB} (h : ∀ r ∈ db.users, r.UID ≠ "")
    (hm : ∀ x ∈ db'.users.map (fun r => r.UID), x ∈ db.users.map (fun r => r.UID)) :
    ∀ r ∈ db'.users, r.UID ≠ "" := by
  intro r hr
  obtain ⟨x, hx, hxr⟩ := List.mem_map.mp (hm _ (List.mem_map_of_mem (fun r => r.UID) hr))
  have := h x hx
  simpa [← hxr] using this

theorem FMDDB.Delete_valid {db : FMDDB} (hv : db.Valid) (e : Entity) : (db.Delete e).Valid := by
  refine ⟨FMDDB.Delete_userKeys hv.userKeys e, FMDDB.Delete_uniqueUIDs hv.uniqueUIDs e,
    ?_, ?_, ?_⟩
  · rcases e with (_ | value) | value | value <;> simp only [FMDDB.Delete]
    · exact hv.locationKeys
    · split <;> exact hv.locationKeys
    · split
      · exact hv.locationKeys
      · exact ⟨hv.locationKeys.1.sublist ((List.filter_sublist _).map _), hv.locationKeys.2.1,
          fun l hl => hv.locationKeys.2.2 l (List.mem_of_mem_filter hl)⟩
    · split <;> exact hv.locationKeys
  · rcases e with (_ | value) | value | value <;> simp only [FMDDB.Delete]
    · exact hv.pictureKeys
    · split <;> exact hv.pictureKeys
    · split <;> exact hv.pictureKeys
    · split
      · exact hv.pictureKeys
      · exact ⟨hv.pictureKeys.1.sublist ((List.filter_sublist _).map _), hv.pictureKeys.2.1,
          fun l hl => hv.pictureKeys.2.2 l (List.mem_of_mem_filter hl)⟩
  · rcases e with (_ | value) | value | value <;> simp only [FMDDB.Delete]
    · exact hv.minted
    · split
      · exact hv.minted
      · exact fun r hr => hv.minted r (List.mem_of_mem_filter hr)
    · split <;> exact hv.minted
    · split <;> exact hv.minted

theorem deleteLocations_valid (db : FMDDB) (hv : db.Valid) (ls : List Location) :
    ( UserIO.deleteLocations db ls).Valid := by
  induction ls generalizing db with
  | nil => exact hv
  | cons d ds ih => exact ih _ (FMDDB.Delete_valid hv _)

theorem deletePictures_valid (db : FMDDB) (hv : db.Valid) (ps : List Picture) :
    ( UserIO.deletePictures db ps).Valid := by
  induction ps generalizing db with
  | nil => exact hv
  | cons d ds ih => exact ih _ (FMDDB.Delete_valid hv _)

theorem FMDDB.insertLocation_valid {db : FMDDB} (hv : db.Valid) (value : Location)
    (h0 : value.Id = 0) : (db.insertLocation value).Valid := by
  simp only [FMDDB.insertLocation, h0, if_true]
  refine ⟨hv.userKeys, hv.uniqueUIDs, ⟨?_, Nat.succ_pos _, ?_⟩, hv.pictureKeys, hv.minted⟩
  · rw [List.map_append, List.pairwise_append]
    refine ⟨hv.locationKeys.1, by simp, ?_⟩
    intro a ha b hb
    obtain ⟨x, hx, rfl⟩ := List.mem_map.mp ha
    simp only [List.map_cons, List.map_nil, List.mem_singleton] at hb
    subst hb
    exact (hv.locationKeys.2.2 x hx).2
  · intro l hl
    rcases List.mem_append.mp hl with h | h
    · exact ⟨(hv.locationKeys.2.2 l h).1, Nat.lt_succ_of_lt (hv.locationKeys.2.2 l h).2⟩
    · rw [List.mem_singleton] at h
      subst h
      exact ⟨hv.locationKeys.2.1, Nat.lt_succ_self _⟩

theorem FMDDB.insertPicture_valid {db : FMDDB} (hv : db.Valid) (value : Picture)
    (h0 : value.Id = 0) : (db.insertPicture value).Valid := by
  simp only [FMDDB.insertPicture, h0, if_true]
  refine ⟨hv.userKeys, hv.uniqueUIDs, hv.locationKeys, ⟨?_, Nat.succ_pos _, ?_⟩, hv.minted⟩
  · rw [List.map_append, List.pairwise_append]
    refine ⟨hv.pictureKeys.1, by simp, ?_⟩
    intro a ha b hb
    obtain ⟨x, hx, rfl⟩ := List.mem_map.mp ha
    simp only [List.map_cons, List.map_nil, List.mem_singleton] at hb
    subst hb
    exact (hv.pictureKeys.2.2 x hx).2
  · intro l hl
    rcases List.mem_append.mp hl with h | h
    · exact ⟨(hv.pictureKeys.2.2 l h).1, Nat.lt_succ_of_lt (hv.pictureKeys.2.2 l h).2⟩
    · rw [List.mem_singleton] at h
      subst h
      exact ⟨hv.pictureKeys.2.1, Nat.lt_succ_self _⟩

/-- `AddLocation` keeps the store valid for every `id` and every cap. -/
theorem AddLocation_valid (u : UserIO) (id loc : String) (hv : u.UB.Valid) :
    (u.AddLocation id loc).u.UB.Valid := by
  unfold UserIO.AddLocation
  cases u.UB.GetByID id with
  | none => exact hv
  | some user =>
    have h1 := FMDDB.insertLocation_valid hv
      { Id := 0, UserID := user.Id, Position := loc } rfl
    simp only [FMDDB.Create]
    split
    · split
      · exact h1
      · exact deleteLocations_valid _ h1 _
    · exact h1

/-- `AddPicture` keeps the store valid for every `id` and every cap. -/
theorem AddPicture_valid (u : UserIO) (id pic : String) (hv : u.UB.Valid) :
    (u.AddPicture id pic).u.UB.Valid := by
  unfold UserIO.AddPicture
  cases u.UB.GetByID id with
  | none => exact hv
  | some user =>
    have h1 := FMDDB.insertPicture_valid hv
      { Id := 0, UserID := user.Id, Content := pic } rfl
    simp only [FMDDB.Create]
    split
    · split
      · exact h1
      · exact deletePictures_valid _ h1 _
    · exact h1

theorem FMDDB.insertUser_children (db : FMDDB) (value : FMDUser) :
    (db.insertUser value).locations = db.locations ∧
      (db.insertUser value).locationSeq = db.locationSeq ∧
      (db.insertUser value).pictures = db.pictures ∧
      (db.insertUser value).pictureSeq = db.pictureSeq := by
  unfold FMDDB.insertUser
  split
  · exact ⟨rfl, rfl, rfl, rfl⟩
  · split
    · exact ⟨rfl, rfl, rfl, rfl⟩
    · split <;> exact ⟨rfl, rfl, rfl, rfl⟩

theorem FMDDB.Save_user_children (db : FMDDB) (value : FMDUser) :
    (db.Save (.user (some value))).locations = db.locations ∧
      (db.Save (.user (some value))).locationSeq = db.locationSeq ∧
      (db.Save (.user (some value))).pictures = db.pictures ∧
      (db.Save (.user (some value))).pictureSeq = db.pictureSeq := by
  simp only [FMDDB.Save]
  split
  · exact FMDDB.insertUser_children db value
  · split
    · split <;> exact ⟨rfl, rfl, rfl, rfl⟩
    · exact FMDDB.insertUser_children db value

theorem FMDDB.valid_of_frame {db db' : FMDDB} (hv : db.Valid) (hk : db'.UserKeys)
    (hu : db'.UniqueUIDs) (hm : ∀ r ∈ db'.users, r.UID ≠ "")
    (hc : db'.locations = db.locations ∧ db'.locationSeq = db.locationSeq ∧
      db'.pictures = db.pictures ∧ db'.pictureSeq = db.pictureSeq) : db'.Valid := by
  refine ⟨hk, hu, ?_, ?_, hm⟩
  · unfold FMDDB.LocationKeys
    rw [hc.1, hc.2.1]
    exact hv.locationKeys
  · unfold FMDDB.PictureKeys
    rw [hc.2.2.1, hc.2.2.2]
    exact hv.pictureKeys

theorem FMDDB.Save_loaded_valid {db : FMDDB} (hv : db.Valid) {id : String}
    {user value : FMDUser} (hg : db.GetByID id = some user)
    (hId : value.Id = user.Id) (hUID : value.UID = user.UID) :
    (db.Save (.user (some value))).Valid := by
  have h := FMDDB.Save_loaded hv.userKeys hg hId hUID
  obtain ⟨h1, h2, -⟩ := FMDDB.same_users _ hv.userKeys hv.uniqueUIDs h
  exact FMDDB.valid_of_frame hv h1 h2
    (FMDDB.minted_of_map hv.minted (fun x hx => by rw [← h.2.1]; exact hx))
    (FMDDB.Save_user_children db value)

/-- Every account manager operation of a manager configured with identifiers
of at least one character keeps the store valid, whether it returns or
panics. -/
theorem exec_valid (fuel : Nat) (op : Op) (w w' : World) (ret : Option String)
    (hlen : 1 ≤ w.u.userIDLength) (hv : w.u.UB.Valid)
    (h : op.exec fuel w = some (w', ret)) : w'.u.UB.Valid := by
  have setter : ∀ (f : FMDUser → FMDUser), (∀ x, (f x).Id = x.Id) → (∀ x, (f x).UID = x.UID) →
      ∀ (res : Result Unit) (id : String),
      res = (match w.u.UB.GetByID id with
        | none => { u := w.u, ret := .error .nilPointerDereference }
        | some user =>
          { u := { w.u with UB := w.u.UB.Save (.user (some (f user))) }, ret := .ok () }) →
      res.u.UB.Valid := by
    intro f hf1 hf2 res id hres
    cases hg : w.u.UB.GetByID id with
    | none =>
      rw [hg] at hres
      rw [hres]
      exact hv
    | some user =>
      rw [hg] at hres
      rw [hres]
      exact FMDDB.Save_loaded_valid hv hg (hf1 user) (hf2 user)
  cases op with
  | CreateNewUser privKey pubKey salt hashedPassword =>
    simp only [Op.exec] at h
    split at h
    · exact absurd h (by simp)
    · rename_i r rnd' hc
      simp only [Option.some.injEq, Prod.mk.injEq] at h
      rw [← h.1]
      obtain ⟨h1, h2, -, -⟩ := CreateNewUser_fresh w.u fuel w.rnd _ _ _ _ r rnd' hv.userKeys
        hv.uniqueUIDs hc
      unfold UserIO.CreateNewUser at hc
      split at hc
      · exact absurd hc (by simp)
      · simp only [Option.some.injEq, Prod.mk.injEq] at hc
        rw [← hc.1]
        exact hv
      · rename_i id rnd1 hgen
        simp only [Option.some.injEq, Prod.mk.injEq] at hc
        have hne := generateNewId_nonempty w.u hlen fuel w.rnd id rnd1 hgen
        have hfresh := FMDDB.GetByID_none hv.userKeys (generateNewId_fresh w.u fuel w.rnd id rnd1 hgen)
        have hins := (FMDDB.insertUser_zero hv.userKeys hv.uniqueUIDs
          { Id := 0, UID := id, Salt := salt, HashedPassword := hashedPassword,
            PrivateKey := privKey, PublicKey := pubKey, CommandToUser := "", PushUrl := "",
            Locations := [], Pictures := [] } rfl).2.2.2 hfresh
        rw [← hc.1] at h1 h2 ⊢
        refine FMDDB.valid_of_frame hv h1 h2 ?_ (FMDDB.insertUser_children _ _)
        intro x hx
        simp only [FMDDB.Create] at hx
        rw [hins] at hx
        rcases List.mem_append.mp hx with hx | hx
        · exact hv.minted x hx
        · rw [List.mem_singleton] at hx
          rw [hx]
          exact hne
  | UpdateUserPassword id privKey salt hashedPassword =>
    simp only [Op.exec, Option.some.injEq, Prod.mk.injEq] at h
    rw [← h.1]
    exact setter
      (fun user => { user with HashedPassword := hashedPassword, Salt := salt, PrivateKey := privKey })
      (fun _ => rfl) (fun _ => rfl) (w.u.UpdateUserPassword id privKey salt hashedPassword) id rfl
  | SetPrivateKey id key =>
    simp only [Op.exec, Option.some.injEq, Prod.mk.injEq] at h
    rw [← h.1]
    exact setter (fun user => { user with PrivateKey := key })
      (fun _ => rfl) (fun _ => rfl) (w.u.SetPrivateKey id key) id rfl
  | SetPublicKey id key =>
    simp only [Op.exec, Option.some.injEq, Prod.mk.injEq] at h
    rw [← h.1]
    exact setter (fun user => { user with PublicKey := key })
      (fun _ => rfl) (fun _ => rfl) (w.u.SetPublicKey id key) id rfl
  | SetCommandToUser id ctu =>
    simp only [Op.exec, Option.some.injEq, Prod.mk.injEq] at h
    rw [← h.1]
    exact setter (fun user => { user with CommandToUser := ctu })
      (fun _ => rfl) (fun _ => rfl) (w.u.SetCommandToUser id ctu) id rfl
  | SetPushUrl id pushUrl =>
    simp only [Op.exec, Option.some.injEq, Prod.mk.injEq] at h
    rw [← h.1]
    exact setter (fun user => { user with PushUrl := pushUrl })
      (fun _ => rfl) (fun _ => rfl) (w.u.SetPushUrl id pushUrl) id rfl
  | AddLocation id loc =>
    simp only [Op.exec, Option.some.injEq, Prod.mk.injEq] at h
    rw [← h.1]
    exact AddLocation_valid w.u id loc hv
  | AddPicture id pic =>
    simp only [Op.exec, Option.some.injEq, Prod.mk.injEq] at h
    rw [← h.1]
    exact AddPicture_valid w.u id pic hv
  | DeleteUser id =>
    simp only [Op.exec, Option.some.injEq, Prod.mk.injEq] at h
    rw [← h.1]
    exact FMDDB.Delete_valid hv _

/-! ## Index access -/

/-- `GetLocation` with an index outside `[0, len)` prints one line and returns
the empty string. -/
theorem GetLocation_out_of_range (u : UserIO) (id : String) (idx : Int) (user : FMDUser)
    (hg : u.UB.GetByID id = some user)
    (h : idx < 0 ∨ idx ≥ (user.Locations.length : Int)) :
    ∃ line, u.GetLocation id idx = .ok ([line], "") := by
  unfold UserIO.GetLocation
  simp only [hg, h, if_true]
  exact ⟨_, rfl⟩

/-- `GetLocation` with an index inside `[0, len)` returns the position of the
row at that index; its index expression is within bounds. -/
theorem GetLocation_in_range (u : UserIO) (id : String) (idx : Int) (user : FMDUser)
    (hg : u.UB.GetByID id = some user)
    (h0 : 0 ≤ idx) (h1 : idx < (user.Locations.length : Int)) :
    ∃ l, user.Locations[idx.toNat]? = some l ∧ u.GetLocation id idx = .ok ([], l.Position) := by
  have hlt : idx.toNat < user.Locations.length := by omega
  have hn : ¬ (idx < 0 ∨ idx ≥ (user.Locations.length : Int)) := by omega
  refine ⟨user.Locations[idx.toNat], List.getElem?_eq_getElem hlt, ?_⟩
  unfold UserIO.GetLocation
  simp only [hg, hn, if_false, List.getElem?_eq_getElem hlt]

/-- `GetPicture` with an index inside `[0, len)` returns the content of the
row at that index. -/
theorem GetPicture_in_range (u : UserIO) (id : String) (idx : Int) (user : FMDUser)
    (hg : u.UB.GetByID id = some user)
    (h0 : 0 ≤ idx) (h1 : idx < (user.Pictures.length : Int)) :
    ∃ p, user.Pictures[idx.toNat]? = some p ∧ u.GetPicture id idx = .ok p.Content := by
  have hlt : idx.toNat < user.Pictures.length := by omega
  have hlen : user.Pictures.length ≠ 0 := by omega
  have hn : ¬ idx < 0 := by omega
  refine ⟨user.Pictures[idx.toNat], List.getElem?_eq_getElem hlt, ?_⟩
  unfold UserIO.GetPicture
  simp only [hg, hlen, hn, if_false, List.getElem?_eq_getElem hlt]

/-- `GetPicture` on a non-empty collection with an index outside `[0, len)`
panics. -/
theorem GetPicture_out_of_range (u : UserIO) (id : String) (idx : Int) (user : FMDUser)
    (hg : u.UB.GetByID id = some user) (hlen : user.Pictures.length ≠ 0)
    (h : idx < 0 ∨ idx ≥ (user.Pictures.length : Int)) :
    u.GetPicture id idx = .error .indexOutOfRange := by
  unfold UserIO.GetPicture
  simp only [hg, hlen, if_false]
  by_cases hneg : idx < 0
  · simp only [hneg, if_true]
  · have hge : user.Pictures.length ≤ idx.toNat := by omega
    simp only [hneg, if_false, List.getElem?_eq_none hge]

/-- `UpdateUserPassword` on an identifier the lookup does not find panics and
writes nothing. -/
theorem UpdateUserPassword_not_found (u : UserIO) (id privKey salt hashedPassword : String)
    (hg : u.UB.GetByID id = none) :
    u.UpdateUserPassword id privKey salt hashedPassword =
      { u := u, ret := .error .nilPointerDereference } := by
  unfold UserIO.UpdateUserPassword
  simp only [hg]

/-! ## Instances on sample states -/

/-- The sample store is valid. -/
theorem sampleStore_valid : sampleStore.Valid := by
  refine ⟨?_, ?_, ?_, ?_, ?_⟩ <;>
    simp [sampleStore, FMDDB.empty, FMDDB.UserKeys, FMDDB.UniqueUIDs, FMDDB.LocationKeys,
      FMDDB.PictureKeys]

/-- Instance of `genRandomString_alphabet`: two draws, the first and the last index
of the alphabet. -/
theorem genRandomString_alphabet_witness :
    [0, 56].length = 2 ∧ (∀ d ∈ [0, 56], d < letters.length) ∧ ∃ s : String, genRandomString ((2 : Nat) : Int) ([0, 56] ++ [7]) = .ok (s, [7]) ∧
      s.length = 2 ∧ ∀ c ∈ s.toList, isLetterOrDigit c = true ∧ c ∉ excluded :=
  ⟨rfl, by decide, genRandomString_alphabet 2 [0, 56] [7] rfl (by decide)⟩

/-- Instance of `RequestAccess_granted`: the account `a` of the sample store,
whose stored password is `HASH`, and the password `hAsH`. -/
theorem RequestAccess_granted_witness :
    sampleManager.UB.Valid ∧
    Unicode.plain.equalIgnoringCase "HASH" "hAsH" = true ∧
    sampleManager.RequestAccess Unicode.plain sampleACC.observed (0, []) "a" "hAsH" =
      ((true, 1), (1, [Call.ResetLock "a", Call.PutAccess "a"])) :=
  ⟨sampleStore_valid, by decide,
    RequestAccess_granted sampleManager Unicode.plain sampleACC 0 [] "a" "hAsH"
      { Id := 1, UID := "a", Salt := "", HashedPassword := "HASH", PrivateKey := "",
        PublicKey := "", CommandToUser := "", PushUrl := "", Locations := [], Pictures := [] }
      sampleStore_valid (by decide) rfl (by decide)⟩

/-- The store of `fullManager` is valid. -/
theorem fullStore_valid : fullStore.Valid := by
  refine ⟨?_, ?_, ?_, ?_, ?_⟩ <;>
    simp [fullStore, FMDDB.UserKeys, FMDDB.UniqueUIDs, FMDDB.LocationKeys, FMDDB.PictureKeys]

/-- Instance of `AddLocation_AddPicture_retention` with eviction: the account
`a` of `fullStore` holds three locations and three pictures under caps of one,
so an insert removes the two oldest rows and leaves the third and the new one;
on the sample store, where `a` holds nothing under caps of three, an insert
leaves one row and five inserts leave at most four. -/
theorem AddLocation_AddPicture_retention_witness :
    fullManager.UB.Valid ∧ fullManager.UB.HasAccount "a" ∧
    fullManager.GetLocationSize "a" = .ok 3 ∧ fullManager.maxSavedLoc = 1 ∧
    (fullManager.AddLocation "a" "L4").u.GetLocationSize "a" = .ok 2 ∧
    ((fullManager.AddLocation "a" "L4").u.UB.GetByID "a").map
      (fun x => x.Locations.map (fun l => l.Position)) = some ["L3", "L4"] ∧
    (fullManager.AddPicture "a" "P4").u.GetPictureSize "a" = .ok 2 ∧
    ((fullManager.AddPicture "a" "P4").u.UB.GetByID "a").map
      (fun x => x.Pictures.map (fun p => p.Content)) = some ["P3", "P4"] ∧
    (sampleManager.AddLocation "a" "L1").u.GetLocationSize "a" = .ok 1 ∧
    (∃ n : Int, (sampleManager.addLocations
      [("a", "L1"), ("a", "L2"), ("a", "L3"), ("a", "L4"), ("a", "L5")]).GetLocationSize "a" =
        .ok n ∧ n ≤ 4) ∧
    (∃ n : Int, (sampleManager.addPictures
      [("a", "P1"), ("a", "P2"), ("a", "P3"), ("a", "P4"), ("a", "P5")]).GetPictureSize "a" =
        .ok n ∧ n ≤ 4) := by
  obtain ⟨⟨user, hg, hall, -⟩, ⟨user', hg', hallP, -⟩⟩ :=
    AddLocation_AddPicture_retention fullManager "a" _ fullStore_valid
      (List.mem_singleton_self _) rfl (by decide) (by decide)
  obtain ⟨⟨suser, shg, shall, siter⟩, ⟨suser', shg', -, siter'⟩⟩ :=
    AddLocation_AddPicture_retention sampleManager "a" _ sampleStore_valid
      (List.mem_singleton_self _) rfl (by decide) (by decide)
  have hload : fullManager.UB.GetByID "a" = some
      { Id := 1, UID := "a", Salt := "", HashedPassword := "HASH", PrivateKey := "",
        PublicKey := "", CommandToUser := "", PushUrl := "",
        Locations := fullStore.locations, Pictures := fullStore.pictures } := by decide
  have sload : sampleManager.UB.GetByID "a" = some
      { Id := 1, UID := "a", Salt := "", HashedPassword := "HASH", PrivateKey := "",
        PublicKey := "", CommandToUser := "", PushUrl := "", Locations := [],
        Pictures := [] } := by decide
  have hu := Option.some.inj (hg.symm.trans hload)
  have hu' := Option.some.inj (hg'.symm.trans hload)
  have su := Option.some.inj (shg.symm.trans sload)
  have su' := Option.some.inj (shg'.symm.trans sload)
  subst hu hu' su su'
  refine ⟨fullStore_valid, ⟨_, List.mem_singleton_self _, rfl⟩, by decide, rfl,
    (hall "L4").2.2.2 (by decide), ?_, (hallP "P4").2.2.2 (by decide), ?_,
    (shall "L1").2.2.1 (by decide), siter (by decide) _, siter' (by decide) _⟩
  · rw [(hall "L4").2.1]
    decide
  · rw [(hallP "P4").2.1]
    decide

/-- The empty store satisfies the constraints of the users table. -/
theorem sampleKeys : FMDDB.empty.UserKeys ∧ FMDDB.empty.UniqueUIDs := by
  constructor <;> simp [FMDDB.empty, FMDDB.UserKeys, FMDDB.UniqueUIDs]

/-- Instance of `unique_UIDs_invariant` with a collision: the store holds the
account `a`, the first candidate drawn is `a`, which `generateNewId` finds
taken, and the second candidate `b` is returned; `b` is the UID of no account
that was there, the account created carries it, and the UIDs `a`, `b` are
distinct afterwards.  An `UpdateUserPassword("a", ...)` keeps them so. -/
theorem unique_UIDs_invariant_witness :
    busyWorld.u.UB.UserKeys ∧ busyWorld.u.UB.UniqueUIDs ∧
    busyWorld.u.UB.HasAccount "a" ∧
    genRandomString busyWorld.u.userIDLength busyWorld.rnd = .ok ("a", [1]) ∧
    busyCreated.1.ret = .ok "b" ∧
    ((∀ x ∈ busyWorld.u.UB.users, x.UID ≠ "b") ∧ ∃ x ∈ busyCreated.1.u.UB.users, x.UID = "b") ∧
    busyCreated.1.u.UB.users.map (fun r => r.UID) = ["a", "b"] ∧
    (busyCreated.1.u.UB.UserKeys ∧ busyCreated.1.u.UB.UniqueUIDs) ∧
    ((busyWorld.u.UpdateUserPassword "a" "k2" "s2" "h2").u.UB.UserKeys ∧
      (busyWorld.u.UpdateUserPassword "a" "k2" "s2" "h2").u.UB.UniqueUIDs) :=
  ⟨sampleStore_valid.userKeys, sampleStore_valid.uniqueUIDs,
    ⟨_, List.mem_singleton_self _, rfl⟩, by decide, by decide,
    (unique_UIDs_invariant 1 busyWorld sampleStore_valid.userKeys
      sampleStore_valid.uniqueUIDs).2 "k" "p" "s" "h" busyCreated.1 busyCreated.2 "b"
      (by decide) (by decide),
    by decide,
    (unique_UIDs_invariant 1 busyWorld sampleStore_valid.userKeys
      sampleStore_valid.uniqueUIDs).1 (Op.CreateNewUser "k" "p" "s" "h")
      { u := busyCreated.1.u, rnd := busyCreated.2 } (some "b") (by decide),
    (unique_UIDs_invariant 1 busyWorld sampleStore_valid.userKeys
      sampleStore_valid.uniqueUIDs).1 (Op.UpdateUserPassword "a" "k2" "s2" "h2")
      { busyWorld with u := (busyWorld.u.UpdateUserPassword "a" "k2" "s2" "h2").u } none
      (by decide)⟩

/-- Instance of `CreateNewUser_distinct_until_deleted` with a deletion in
between: `a` is created, then `b` is created and deleted, and the next
creation, whose first candidate `a` is taken, returns `c`. -/
theorem CreateNewUser_distinct_until_deleted_witness :
    (Op.CreateNewUser "k1" "p1" "s1" "h1").exec 1 longWorld =
      some (longAfter [Op.CreateNewUser "k1" "p1" "s1" "h1"], some "a") ∧
    runOps 1 [Op.CreateNewUser "k" "p" "s" "h", Op.DeleteUser "b"]
        (longAfter [Op.CreateNewUser "k1" "p1" "s1" "h1"]) =
      some (longAfter [Op.CreateNewUser "k1" "p1" "s1" "h1", Op.CreateNewUser "k" "p" "s" "h",
        Op.DeleteUser "b"], ["b"]) ∧
    (Op.CreateNewUser "k2" "p2" "s2" "h2").exec 1
        (longAfter [Op.CreateNewUser "k1" "p1" "s1" "h1", Op.CreateNewUser "k" "p" "s" "h",
          Op.DeleteUser "b"]) =
      some (longAfter [Op.CreateNewUser "k1" "p1" "s1" "h1", Op.CreateNewUser "k" "p" "s" "h",
        Op.DeleteUser "b", Op.CreateNewUser "k2" "p2" "s2" "h2"], some "c") ∧
    "c" ≠ "a" :=
  ⟨by decide, by decide, by decide,
    CreateNewUser_distinct_until_deleted 1 longWorld longWorld
      (longAfter [Op.CreateNewUser "k1" "p1" "s1" "h1"])
      (longAfter [Op.CreateNewUser "k1" "p1" "s1" "h1", Op.CreateNewUser "k" "p" "s" "h",
        Op.DeleteUser "b"])
      (longAfter [Op.CreateNewUser "k1" "p1" "s1" "h1", Op.CreateNewUser "k" "p" "s" "h",
        Op.DeleteUser "b", Op.CreateNewUser "k2" "p2" "s2" "h2"])
      [] [Op.CreateNewUser "k" "p" "s" "h", Op.DeleteUser "b"]
      [] ["b"] "k1" "p1" "s1" "h1" "k2" "p2" "s2" "h2" "a" "c"
      sampleKeys.1 sampleKeys.2 (by decide) (by decide) (by decide) (by decide) (by decide)⟩

/-! ## Where the code leaves the specification -/

/-- C1, on the code: with `maxSavedLoc = 3`, after `AddLocation` of `L1`, `L2`,
`L3`, `L4` to an account without locations, `GetLocationSize` returns 4 and
`GetLocation(id, 0)` returns `L1`: the cap is compared with the collection
loaded before the insert, so one row more than the cap is kept. -/
theorem AddLocation_keeps_one_more_than_cap :
    sampleManager.maxSavedLoc = 3 ∧
    sampleManager.GetLocationSize "a" = .ok 0 ∧
    (sampleManager.addLocations
      [("a", "L1"), ("a", "L2"), ("a", "L3"), ("a", "L4")]).GetLocationSize "a" = .ok 4 ∧
    (sampleManager.addLocations
      [("a", "L1"), ("a", "L2"), ("a", "L3"), ("a", "L4")]).GetLocation "a" 0 =
        .ok ([], "L1") := by
  decide

/-- C3, on the code: no account of `sampleStore` has the empty UID, yet
`RequestAccess("", "HASH")` loads the first account (the lookup has no
condition for an empty `id`), finds its password matching, calls `ResetLock`
and `PutAccess` and returns `(true, token)`. -/
theorem RequestAccess_empty_id_granted :
    (∀ r ∈ sampleManager.UB.users, r.UID ≠ "") ∧
    sampleManager.RequestAccess Unicode.plain sampleACC.observed (0, []) "" "HASH" =
      ((true, 1), (1, [Call.ResetLock "", Call.PutAccess ""])) := by
  decide

/-- C5, as stated, fails: with identifiers of length 1, `CreateNewUser`,
`DeleteUser("a")`, `CreateNewUser` on one store returns `a` twice. -/
theorem CreateNewUser_reissues_deleted_id :
    1 ≤ sampleWorld.u.userIDLength ∧
    (runOps 1 [Op.CreateNewUser "k" "p" "s" "h", Op.DeleteUser "a",
      Op.CreateNewUser "k1" "p1" "s1" "h1"] sampleWorld).map Prod.snd = some ["a", "a"] := by
  decide

/-- C6, on the code: `DeleteUser("a")` on a store where `a` (key 1) holds one
location and one picture removes the user row, so `GetByID("a")` returns nil,
and leaves both child rows with `UserID` 1 in the store: the cascade the tags
of `FMDUser` declare is not carried out.  The other account is untouched. -/
theorem DeleteUser_leaves_child_rows :
    pairManager.UB.HasAccount "a" ∧
    (pairManager.DeleteUser "a").u.UB.GetByID "a" = none ∧
    (pairManager.DeleteUser "a").u.UB.locations.filter (fun l => l.UserID == 1) =
      [{ Id := 1, UserID := 1, Position := "L1" }] ∧
    (pairManager.DeleteUser "a").u.UB.pictures.filter (fun p => p.UserID == 1) =
      [{ Id := 1, UserID := 1, Content := "P1" }] ∧
    (pairManager.DeleteUser "a").u.UB.GetByID "b" = pairManager.UB.GetByID "b" :=
  ⟨⟨_, List.mem_cons_self _ _, rfl⟩, by decide, by decide, by decide, by decide⟩

/-- C7, on the code: on an account with one picture, `GetPicture(id, 1)` and
`GetPicture(id, -1)` panic with an index out of range, where `GetLocation` on
an account with one location returns the empty string for both indices. -/
theorem GetPicture_out_of_range_panics :
    (sampleManager.AddPicture "a" "P1").u.GetPictureSize "a" = .ok 1 ∧
    (sampleManager.AddPicture "a" "P1").u.GetPicture "a" 1 = .error .indexOutOfRange ∧
    (sampleManager.AddPicture "a" "P1").u.GetPicture "a" (-1) = .error .indexOutOfRange ∧
    ((sampleManager.AddLocation "a" "L1").u.GetLocation "a" 1).map Prod.snd = .ok "" ∧
    ((sampleManager.AddLocation "a" "L1").u.GetLocation "a" (-1)).map Prod.snd = .ok "" := by
  decide

/-- C8, on the code: `UpdateUserPassword` for an identifier that no account
carries panics on the nil user it dereferences. -/
theorem UpdateUserPassword_absent_panics :
    (∀ r ∈ sampleManager.UB.users, r.UID ≠ "ghost") ∧
    (sampleManager.UpdateUserPassword "ghost" "k" "s" "h").ret =
      .error .nilPointerDereference ∧
    (sampleManager.UpdateUserPassword "ghost" "k" "s" "h").u = sampleManager := by
  decide

end FMD
